import Mathlib

/-!
# key-and-pad: the Web Audio reconciler

A shallow embedding of `src/utils/web-audio-reconciler.js`.

* Store snapshots are JSON-like values (`JSVal`).  A JavaScript `undefined`
  is the `none` of an `Option JSVal`.
* `WebAudioManager` is an external collaborator: every call the reconciler
  makes on it is recorded in a trace, and the manager decides whether the call
  raises.
* `updatedWithinPath` lives in `./misc-helpers`, which is not part of the
  sources at hand; it is modelled from the specification of the diff engine.
-/

namespace KeyAndPad

/-! ## Values -/

/-- A snapshot value.  Numbers are only ever compared for equality by the
reconciler, so they are represented by an exact numeric type.  A string is a
well-formed string `str s`, or the one-unit string `surrogate u` made of a
lone UTF-16 surrogate code unit, which is what indexing into a string with a
character outside the basic plane gives. -/
inductive JSVal where
  | null
  | bool (b : Bool)
  | num (n : Int)
  | str (s : String)
  | surrogate (unit : Nat)
  | arr (items : List JSVal)
  | obj (fields : List (String × JSVal))

/-- The value stored under key `k` in a field list: the first entry wins. -/
def lookupKey (k : String) : List (String × JSVal) → Option JSVal
  | [] => none
  | (k', v) :: t => if k' = k then some v else lookupKey k t

mutual
/-- Deep structural equality: sequences are equal when they have the same
length and equal elements pairwise in order; mappings are equal when they have
the same key set and equal values per key. -/
def deepEq : JSVal → JSVal → Bool
  | .null, .null => true
  | .bool a, .bool b => a == b
  | .num a, .num b => a == b
  | .str a, .str b => a == b
  | .surrogate a, .surrogate b => a == b
  | .arr xs, .arr ys => itemsEq xs ys
  | .obj f, .obj g =>
    fieldsWithin [] f g && g.all (fun p => (lookupKey p.1 f).isSome)
  | _, _ => false
/-- Pairwise, in-order equality of two sequences. -/
def itemsEq : List JSVal → List JSVal → Bool
  | [], [] => true
  | x :: xs, y :: ys => deepEq x y && itemsEq xs ys
  | _, _ => false
/-- Every key of the first field list that is not in `seen` is a key of the
second one, with an equal value.  `seen` holds the keys already met, so that
only the effective (first) entry of a key is compared. -/
def fieldsWithin (seen : List String) :
    List (String × JSVal) → List (String × JSVal) → Bool
  | [], _ => true
  | (k, v) :: t, g =>
    (seen.contains k || (match lookupKey k g with
      | some w => deepEq v w
      | none => false)) && fieldsWithin (k :: seen) t g
end

/-! ## The diff engine (`./misc-helpers`) -/

/-- One field-access step: only a mapping has keys; anywhere else the step
does not resolve. -/
def step (k : String) : JSVal → Option JSVal
  | .obj f => lookupKey k f
  | _ => none

/-- Resolve a path of field-access steps; `none` is the "absent" marker. -/
def resolve : List String → JSVal → Option JSVal
  | [], v => some v
  | k :: ks, v =>
    match step k v with
    | some w => resolve ks w
    | none => none

/-- Comparison of two resolved values: absent and absent are equal, absent
and present are unequal, two present values are compared structurally. -/
def sameValue : Option JSVal → Option JSVal → Bool
  | none, none => true
  | some a, some b => deepEq a b
  | _, _ => false

/-- Modelled from the spec: the comparison of two resolved `notes` values.
Section 3 of the specification makes the order of the notes irrelevant to
equality: they are treated as a set for comparison purposes, without assuming
that the order was normalised upstream.  Two sequences are therefore equal
when every element of each is structurally equal to an element of the other;
values that are not both sequences are compared like any other value. -/
def sameNotes : Option JSVal → Option JSVal → Bool
  | some (.arr xs), some (.arr ys) =>
    xs.all (fun x => ys.any (fun y => deepEq x y)) &&
      ys.all (fun y => xs.any (fun x => deepEq x y))
  | a, b => sameValue a b

/-- Modelled from the spec: `updatedWithinPath` of `./misc-helpers` (the
PathDiffEngine `differsAt`), whose source is missing.  With no previous
snapshot the answer is `false` for every path; otherwise the path is resolved
in both snapshots independently, an unresolved path counts as absent, and the
resolved values are compared by deep structural equality, the `notes` of a
snapshot as a set. -/
def updatedWithinPath (previousState : Option JSVal) (currentState : JSVal)
    (path : List String) : Bool :=
  match previousState with
  | none => false
  | some p =>
    if path = ["notes"] then
      !sameNotes (resolve path p) (resolve path currentState)
    else
      !sameValue (resolve path p) (resolve path currentState)

/-! ## JavaScript expressions used by `reconcile` itself -/

/-- What can be raised during a pass. -/
inductive JSError where
  | typeError
  | managerError
  deriving DecidableEq, Repr

/-- The member access `base.k` / `base[k]`.  Reading a property of `undefined`
or `null` raises a `TypeError`; a missing property reads as `undefined`.
Inherited (prototype) properties and the index and `length` properties of
arrays and strings are not modelled: none of the keys that `reconcile` reads
(`effects`, `x`, `y`, `options`) is one of them. -/
def getProp (base : Option JSVal) (k : String) : Except JSError (Option JSVal) :=
  match base with
  | none => .error .typeError
  | some .null => .error .typeError
  | some (.obj f) => .ok (lookupKey k f)
  | some _ => .ok none

/-- The entries `("0", a₀), ("1", a₁), …` of an array-like value. -/
def indexed : Nat → List JSVal → List (String × JSVal)
  | _, [] => []
  | i, v :: t => (toString i, v) :: indexed (i + 1) t

/-- The UTF-16 code units of a character, each as a one-unit string: the
character itself in the basic plane, else its high and low surrogates. -/
def codeUnits (c : Char) : List JSVal :=
  if c.toNat < 65536 then [.str (String.singleton c)]
  else [.surrogate (55296 + (c.toNat - 65536) / 1024),
    .surrogate (56320 + (c.toNat - 65536) % 1024)]

/-- The object literal `{ ...v }`: a shallow copy of the own enumerable
properties of `v`.  An array has its elements under their indices, a string
its UTF-16 code units under their indices; `undefined`, `null`, numbers and
booleans have none. -/
def spread : Option JSVal → JSVal
  | some (.obj f) => .obj f
  | some (.arr xs) => .obj (indexed 0 xs)
  | some (.str s) => .obj (indexed 0 (s.toList.flatMap codeUnits))
  | some (.surrogate u) => .obj [("0", .surrogate u)]
  | _ => .obj []

/-! ## The WebAudioManager collaborator -/

/-- A call made on `WebAudioManager`, with its argument. -/
inductive Call where
  | stopAllOscillators
  | createOscillators (state : JSVal)
  | updateEffectAmount (axis : String) (amount : JSVal)
  | destroyEffectChain
  | rebuildEffectChain (effects : JSVal)
  | updateEffectParameters (axis : String) (options : Option JSVal)

/-- The manager as seen from the reconciler: given the calls made so far in
the pass and the next call, does that call raise? -/
structure WebAudioManager where
  raises : List Call → Call → Bool

/-- A manager none of whose calls raises. -/
def reliableManager : WebAudioManager := ⟨fun _ _ => false⟩

/-- The progress of one pass: the calls made so far and the error raised, if
any. -/
structure Run where
  trace : List Call
  error : Option JSError

/-- Make a call on the manager, unless an error has already ended the pass.
The call is recorded even when it raises. -/
def Run.invoke (mgr : WebAudioManager) (c : Call) (r : Run) : Run :=
  match r.error with
  | some _ => r
  | none =>
    { trace := r.trace ++ [c]
      error := if mgr.raises r.trace c then some .managerError else none }

/-- Evaluate an expression that may raise, then go on with its value, unless
an error has already ended the pass. -/
def Run.eval {α : Type} (x : Except JSError α) (k : α → Run → Run) (r : Run) : Run :=
  match r.error with
  | some _ => r
  | none =>
    match x with
    | .error e => { r with error := some e }
    | .ok a => k a r

/-- The expression `currentState.effects[axis].options`. -/
def axisOptions (currentState : JSVal) (axis : String) : Except JSError (Option JSVal) :=
  match getProp (some currentState) "effects" with
  | .error e => .error e
  | .ok effects =>
    match getProp effects axis with
    | .error e => .error e
    | .ok entry => getProp entry "options"

/-! ## `reconcile` -/

/-- The first branch of the callback: if the position has changed, tweak the
amount.  The `amount` passed is the whole current state. -/
def amountStep (mgr : WebAudioManager) (updatedInNewState : List String → Bool)
    (currentState : JSVal) (axis : String) (r : Run) : Run :=
  let positionChanged := updatedInNewState ["effects", axis, "amount"]
  if positionChanged then
    r.invoke mgr (.updateEffectAmount axis currentState)
  else r

/-- The second branch: if the effect itself was swapped out, destroy the
effect chain and recreate it from `{ ...currentState.effects }`. -/
def nameStep (mgr : WebAudioManager) (updatedInNewState : List String → Bool)
    (currentState : JSVal) (axis : String) (r : Run) : Run :=
  let effectNameChanged := updatedInNewState ["effects", axis, "name"]
  if effectNameChanged then
    (r.invoke mgr .destroyEffectChain).eval (getProp (some currentState) "effects")
      (fun effects => Run.invoke mgr (.rebuildEffectChain (spread effects)))
  else r

/-- The third branch: if the effect parameters were tweaked, update them with
`currentState.effects[axis].options`. -/
def paramStep (mgr : WebAudioManager) (updatedInNewState : List String → Bool)
    (currentState : JSVal) (axis : String) (r : Run) : Run :=
  let effectParamTweaked := updatedInNewState ["effects", axis, "options"]
  if effectParamTweaked then
    r.eval (axisOptions currentState axis)
      (fun options => Run.invoke mgr (.updateEffectParameters axis options))
  else r

/-- The body of the `forEach` callback of `reconcile` for one axis: skip the
axis if it was not updated, else run the three branches in source order. -/
def axisBody (mgr : WebAudioManager) (updatedInNewState : List String → Bool)
    (currentState : JSVal) (axis : String) (r : Run) : Run :=
  if !updatedInNewState ["effects", axis] then r else
  paramStep mgr updatedInNewState currentState axis
    (nameStep mgr updatedInNewState currentState axis
      (amountStep mgr updatedInNewState currentState axis r))

/-- The loop `axes.forEach(body)`: an error raised by the callback ends it. -/
def forEach (axes : List String) (body : String → Run → Run) (r : Run) : Run :=
  axes.foldl (fun acc axis => match acc.error with
    | some _ => acc
    | none => body axis acc) r

/-- What one pass of `reconcile` leaves behind: the module variable
`currentState`, the calls made on the manager, and the error raised, if any
(`none`: the pass returned normally). -/
structure Result where
  currentState : Option JSVal
  trace : List Call
  error : Option JSError

/-- The function `reconcile`.  `currentState` is the module variable on entry
(`none`: still `undefined`), `snapshot` is what `store.getState()` returns. -/
def reconcile (mgr : WebAudioManager) (currentState : Option JSVal)
    (snapshot : JSVal) : Result :=
  let previousState := currentState
  let currentState := snapshot
  -- If this is our very first reconciliation, we don't have anything to compare!
  match previousState with
  | none => { currentState := some currentState, trace := [], error := none }
  | some _ =>
    let updatedInNewState := updatedWithinPath previousState currentState
    let notesUpdated := updatedInNewState ["notes"]
    let oscillatorsUpdated := updatedInNewState ["oscillators"]
    let effectsUpdated := updatedInNewState ["effects"]
    -- It's possible that this update isn't relevant for Web Audio.
    let soundsUpdated := notesUpdated || oscillatorsUpdated || effectsUpdated
    if !soundsUpdated then
      { currentState := some currentState, trace := [], error := none }
    else
      let r : Run := { trace := [], error := none }
      let r := if notesUpdated || oscillatorsUpdated then
          (r.invoke mgr .stopAllOscillators).invoke mgr (.createOscillators currentState)
        else r
      let r := if effectsUpdated then
          forEach ["x", "y"] (axisBody mgr updatedInNewState currentState) r
        else r
      { currentState := some currentState, trace := r.trace, error := r.error }


/-! ## Shapes of traces -/

/-- Is the call one of the two oscillator-bank calls? -/
def Call.isOscillatorCall : Call → Bool
  | .stopAllOscillators => true
  | .createOscillators _ => true
  | _ => false

/-- The axis a call carries in its argument, if it carries one. -/
def Call.axisTag : Call → Option String
  | .updateEffectAmount axis _ => some axis
  | .updateEffectParameters axis _ => some axis
  | _ => none

/-- The calls of the oscillator-bank rebuild, or a beginning of them. -/
def BankCalls (currentState : JSVal) (l : List Call) : Prop :=
  l = [] ∨ l = [.stopAllOscillators] ∨
    l = [.stopAllOscillators, .createOscillators currentState]

/-- At most the one call `updateEffectAmount({ axis, amount: currentState })`. -/
def AmountCalls (currentState : JSVal) (axis : String) (l : List Call) : Prop :=
  l = [] ∨ l = [.updateEffectAmount axis currentState]

/-- The calls `destroyEffectChain()`, `rebuildEffectChain(E)`, or a beginning
of them. -/
def NameCalls (l : List Call) : Prop :=
  l = [] ∨ l = [.destroyEffectChain] ∨ ∃ E, l = [.destroyEffectChain, .rebuildEffectChain E]

/-- At most one call `updateEffectParameters({ axis, options })`. -/
def ParamCalls (axis : String) (l : List Call) : Prop :=
  l = [] ∨ ∃ options, l = [.updateEffectParameters axis options]

/-- The calls of one axis: amount, then name, then parameters. -/
def AxisCalls (currentState : JSVal) (axis : String) (l : List Call) : Prop :=
  ∃ a n p, l = a ++ n ++ p ∧ AmountCalls currentState axis a ∧ NameCalls n ∧
    ParamCalls axis p

/-! ## Sample snapshots

The state of the `STATE EXAMPLE` comment of the reconciler, with the held
notes under the key `notes` that `reconcile` reads (the comment has `keys`)
and both axis entries under `effects` (the comment has `y` beside `effects`);
amounts and gains are written in hundredths. -/

/-- An axis entry `{ name, amount, options }`. -/
def effectEntry (name : String) (amount : Int) (options : List (String × JSVal)) : JSVal :=
  .obj [("name", .str name), ("amount", .num amount), ("options", .obj options)]

/-- A snapshot with the given notes and axis entries and a fixed oscillator
bank. -/
def sampleState (notes : List String) (x y : JSVal) : JSVal :=
  .obj [
    ("notes", .arr (notes.map .str)),
    ("oscillators", .arr [
      .obj [("waveform", .str "sawtooth"), ("gain", .num 15), ("octaveAdjustment", .num 0)],
      .obj [("waveform", .str "square"), ("gain", .num 50), ("octaveAdjustment", .num (-1))]]),
    ("effects", .obj [("x", x), ("y", y)])]

def filterEntry : JSVal :=
  effectEntry "filter" 40 [("type", .str "lowpass"), ("resonance", .str "5")]

def distortionEntry : JSVal :=
  effectEntry "distortion" 75 [("oversampling", .str "4x")]

def stateExample : JSVal := sampleState ["c4", "e4", "g4"] filterEntry distortionEntry

/-- The same snapshot as `stateExample`, with its top-level keys and the keys
of `effects.x` written in another order. -/
def stateExampleReordered : JSVal :=
  .obj [
    ("effects", .obj [("y", distortionEntry),
      ("x", .obj [("options", .obj [("resonance", .str "5"), ("type", .str "lowpass")]),
        ("amount", .num 40), ("name", .str "filter")])]),
    ("oscillators", .arr [
      .obj [("waveform", .str "sawtooth"), ("gain", .num 15), ("octaveAdjustment", .num 0)],
      .obj [("waveform", .str "square"), ("gain", .num 50), ("octaveAdjustment", .num (-1))]]),
    ("notes", .arr [.str "c4", .str "e4", .str "g4"])]

/-- The snapshot `stateExample` without its top-level `effects` key. -/
def stateWithoutEffects : JSVal :=
  .obj [
    ("notes", .arr [.str "c4", .str "e4", .str "g4"]),
    ("oscillators", .arr [
      .obj [("waveform", .str "sawtooth"), ("gain", .num 15), ("octaveAdjustment", .num 0)],
      .obj [("waveform", .str "square"), ("gain", .num 50), ("octaveAdjustment", .num (-1))]])]

/-! ## The specified algorithm -/

/-- A call on `AudioGraphManager`, the capability contract of section 6 of the
specification.  A value that the specification resolves by path may be
absent (`none`). -/
inductive GraphCall where
  | stopAllOscillators
  | createOscillators (snapshot : JSVal)
  | destroyEffectChain
  | rebuildEffectChain (effectsMapping : Option JSVal)
  | updateEffectAmount (axis : String) (amount : JSVal)
  | updateEffectParameters (axis : String) (options : Option JSVal)

/-- A call of the code, read as a call of the contract. -/
def Call.toGraphCall : Call → GraphCall
  | .stopAllOscillators => .stopAllOscillators
  | .createOscillators state => .createOscillators state
  | .updateEffectAmount axis amount => .updateEffectAmount axis amount
  | .destroyEffectChain => .destroyEffectChain
  | .rebuildEffectChain effects => .rebuildEffectChain (some effects)
  | .updateEffectParameters axis options => .updateEffectParameters axis options

/-- What `onSnapshot` leaves behind: the stored snapshot and the calls made on
`AudioGraphManager`. -/
structure SpecResult where
  previousSnapshot : Option JSVal
  calls : List GraphCall

/-- Step 6 of `onSnapshot` for one changed axis `a`, in the words of the
specification: 6a `updateEffectAmount({axis: a, amount: current})` when the
amount differs; 6b `destroyEffectChain()` then
`rebuildEffectChain(current.effects)` when the name differs; 6c
`updateEffectParameters({axis: a, options: current.effects[a].options})` when
the options differ.  The values are resolved by path, an unresolved path being
absent. -/
def onSnapshotAxis (differsAt : List String → Bool) (current : JSVal) (a : String) :
    List GraphCall :=
  (if differsAt ["effects", a, "amount"] then [.updateEffectAmount a current] else []) ++
  (if differsAt ["effects", a, "name"] then
    [.destroyEffectChain, .rebuildEffectChain (resolve ["effects"] current)] else []) ++
  (if differsAt ["effects", a, "options"] then
    [.updateEffectParameters a (resolve ["effects", a, "options"] current)] else [])

/-- The algorithm `onSnapshot` of the specification (section 4.2), written
from the words of the specification, to be compared with `reconcile`; the
calls are those made when no `AudioGraphManager` call fails. -/
def onSnapshot (previousSnapshot : Option JSVal) (current : JSVal) : SpecResult :=
  -- 1. let previous = previousSnapshot; set previousSnapshot = current
  let previous := previousSnapshot
  -- 2. if previous is absent, return
  match previous with
  | none => { previousSnapshot := some current, calls := [] }
  | some _ =>
    -- 3. the change set
    let differsAt := updatedWithinPath previous current
    let notesChanged := differsAt ["notes"]
    let oscillatorsChanged := differsAt ["oscillators"]
    let axisChanged := fun a => differsAt ["effects", a]
    -- 4. if nothing of these changed, return
    let soundsChanged :=
      notesChanged || oscillatorsChanged || axisChanged "x" || axisChanged "y"
    if !soundsChanged then
      { previousSnapshot := some current, calls := [] }
    else
      { previousSnapshot := some current
        calls :=
          -- 5. rebuild the oscillator bank
          (if notesChanged || oscillatorsChanged then
            [.stopAllOscillators, .createOscillators current] else []) ++
          -- 6. each axis whose entry changed, `x` before `y`
          (if axisChanged "x" then onSnapshotAxis differsAt current "x" else []) ++
          (if axisChanged "y" then onSnapshotAxis differsAt current "y" else []) }

/-! ## The module variables and the stores -/

/-- A store, as far as the reconciler uses it: what `getState()` returns and
how many times `reconcile` is subscribed to it. -/
structure Store where
  state : JSVal
  listeners : Nat

/-- The module variables `currentState`, `store` and `unsubscribe`; a store is
named by its index, and the `unsubscribe` handle by the store it belongs to.
`none` is `undefined`. -/
structure Module where
  currentState : Option JSVal
  store : Option Nat
  unsubscribe : Option Nat

/-- The stores of the application and the one module. -/
structure World where
  stores : Nat → Store
  module : Module

/-- The function `initializeWebAudio(reduxStore)`: `store = reduxStore`, then
`unsubscribe = store.subscribe(reconcile)`. -/
def initializeWebAudio (reduxStore : Nat) (w : World) : World :=
  { stores := fun i =>
      if i = reduxStore then
        { state := (w.stores i).state, listeners := (w.stores i).listeners + 1 }
      else w.stores i
    module :=
      { currentState := w.module.currentState
        store := some reduxStore
        unsubscribe := some reduxStore } }

/-- A store gets a new state (an action was dispatched to it). -/
def setState (i : Nat) (S : JSVal) (w : World) : World :=
  { stores := fun j =>
      if j = i then { state := S, listeners := (w.stores j).listeners } else w.stores j
    module := w.module }

/-- The function `reconcile()` on the module variables:
`currentState = store.getState()` reads the store the module variable `store`
refers to, whichever subscription made the call. -/
def reconcileModule (mgr : WebAudioManager) (w : World) : World × Result :=
  match w.module.store with
  | none => (w, { currentState := w.module.currentState, trace := [], error := some .typeError })
  | some s =>
    let result := reconcile mgr w.module.currentState (w.stores s).state
    ({ stores := w.stores
       module :=
        { currentState := result.currentState
          store := w.module.store
          unsubscribe := w.module.unsubscribe } }, result)

/-! ## Descriptions of traces used in the statements -/

/-- Is the call `stopAllOscillators()`? -/
def Call.isStop : Call → Bool
  | .stopAllOscillators => true
  | _ => false

/-- Is the call `destroyEffectChain()`? -/
def Call.isDestroy : Call → Bool
  | .destroyEffectChain => true
  | _ => false

/-- Is the call a `rebuildEffectChain(…)`? -/
def Call.isRebuild : Call → Bool
  | .rebuildEffectChain _ => true
  | _ => false

/-- In the list `l`, every call that satisfies `p` is immediately followed by
a call that satisfies `q`. -/
def EachFollowedBy (p q : Call → Prop) (l : List Call) : Prop :=
  ∀ before c after, l = before ++ c :: after → p c → ∃ d rest, after = d :: rest ∧ q d

/-- In the list `l` every `destroyEffectChain()` is immediately followed by the
rebuild from the copy of `C.effects`. -/
abbrev DestroyPaired (C : JSVal) (l : List Call) : Prop :=
  EachFollowedBy (fun c => c = .destroyEffectChain)
    (fun d => d = .rebuildEffectChain (spread (resolve ["effects"] C))) l

/-- The calls made for one axis by a pass that completes: the three branches
in source order, with the values the two property reads have then. -/
def completedAxisCalls (upd : List String → Bool) (C : JSVal) (axis : String) : List Call :=
  if upd ["effects", axis] then
    (if upd ["effects", axis, "amount"] then [.updateEffectAmount axis C] else []) ++
    (if upd ["effects", axis, "name"] then
      [.destroyEffectChain, .rebuildEffectChain (spread (step "effects" C))] else []) ++
    (if upd ["effects", axis, "options"] then
      [.updateEffectParameters axis (resolve ["effects", axis, "options"] C)] else [])
  else []

/-- The calls of a pass that completes, with previous snapshot `P` and current
snapshot `C`. -/
def completedTrace (P C : JSVal) : List Call :=
  (if updatedWithinPath (some P) C ["notes"] || updatedWithinPath (some P) C ["oscillators"]
    then [.stopAllOscillators, .createOscillators C] else []) ++
  completedAxisCalls (updatedWithinPath (some P) C) C "x" ++
  completedAxisCalls (updatedWithinPath (some P) C) C "y"

/-- The number of axes, among `x` and `y`, whose effect name differs. -/
def namesChanged (P C : JSVal) : Nat :=
  (["x", "y"].filter (fun a => updatedWithinPath (some P) C ["effects", a, "name"])).length

/-- Is the value a mapping whose key set is exactly `ks`? -/
def hasExactlyKeys (ks : List String) : JSVal → Bool
  | .obj f => f.all (fun p => ks.contains p.1) && ks.all (fun k => (lookupKey k f).isSome)
  | _ => false

/-- Is `effects` a mapping with exactly the keys `x` and `y`, each holding an
entry with exactly the fields `name`, `amount` and `options`? -/
def wellShapedEffects (S : JSVal) : Bool :=
  match resolve ["effects"] S with
  | some effects =>
    hasExactlyKeys ["x", "y"] effects &&
    (match step "x" effects with
      | some entry => hasExactlyKeys ["name", "amount", "options"] entry
      | none => false) &&
    (match step "y" effects with
      | some entry => hasExactlyKeys ["name", "amount", "options"] entry
      | none => false)
  | none => false

/-! ## More sample snapshots -/

/-- The snapshot `{ effects: { x: { name: 'filter' } } }`. -/
def nameOnlyState : JSVal :=
  .obj [("effects", .obj [("x", .obj [("name", .str "filter")])])]

/-- Two stores: store `0` holds the sample state, store `1` the sample state
without `effects`; the module is fresh. -/
def twoStores : World :=
  { stores := fun i =>
      if i = 0 then { state := stateExample, listeners := 0 }
      else { state := stateWithoutEffects, listeners := 0 }
    module := { currentState := none, store := none, unsubscribe := none } }

/-! ## Facts about field lists and structural equality -/

theorem lookupKey_mem {k : String} {v : JSVal} :
    ∀ {f : List (String × JSVal)}, lookupKey k f = some v → (k, v) ∈ f
  | [], h => by simp [lookupKey] at h
  | (k', v') :: t, h => by
    unfold lookupKey at h
    split at h
    · next hk =>
      cases h
      subst hk
      exact List.mem_cons_self _ _
    · exact List.mem_cons_of_mem _ (lookupKey_mem h)

theorem lookupKey_isSome_of_mem {k : String} {v : JSVal} :
    ∀ {f : List (String × JSVal)}, (k, v) ∈ f → (lookupKey k f).isSome = true
  | [], h => by simp at h
  | (k', v') :: t, h => by
    unfold lookupKey
    split
    · rfl
    · next hk =>
      rcases List.mem_cons.mp h with h | h
      · injection h with h1 h2
        exact absurd h1.symm hk
      · exact lookupKey_isSome_of_mem h

/-- What `fieldsWithin` computes, in terms of lookups. -/
theorem fieldsWithin_iff (g : List (String × JSVal)) :
    ∀ (t : List (String × JSVal)) (seen : List String),
      fieldsWithin seen t g = true ↔
        ∀ k v, lookupKey k t = some v → k ∉ seen →
          ∃ w, lookupKey k g = some w ∧ deepEq v w = true
  | [], seen => by simp [fieldsWithin, lookupKey]
  | (k0, v0) :: t, seen => by
    rw [fieldsWithin, Bool.and_eq_true, fieldsWithin_iff g t (k0 :: seen)]
    constructor
    · rintro ⟨hhead, htail⟩ k v hk hseen
      unfold lookupKey at hk
      split at hk
      · next hk0 =>
        cases hk
        subst hk0
        rcases Bool.or_eq_true _ _ |>.mp hhead with h | h
        · exact absurd (by simpa using h) hseen
        · cases hg : lookupKey k0 g with
          | none => simp [hg] at h
          | some w => exact ⟨w, rfl, by simpa [hg] using h⟩
      · next hk0 =>
        exact htail k v hk (by simp [hseen, Ne.symm hk0])
    · intro h
      constructor
      · by_cases hs : k0 ∈ seen
        · simp [hs]
        · obtain ⟨w, hw, hvw⟩ := h k0 v0 (by simp [lookupKey]) hs
          simp [hw, hvw]
      · intro k v hk hseen
        have hne : k0 ≠ k := fun e => hseen (by simp [e])
        exact h k v (by simp [lookupKey, hne, hk]) (fun hm => hseen (List.mem_cons_of_mem _ hm))

mutual
theorem deepEq_refl : ∀ v : JSVal, deepEq v v = true
  | .null => by simp [deepEq]
  | .bool _ => by simp [deepEq]
  | .num _ => by simp [deepEq]
  | .str _ => by simp [deepEq]
  | .surrogate _ => by simp [deepEq]
  | .arr xs => by rw [deepEq]; exact itemsEq_refl xs
  | .obj f => by
    rw [deepEq, Bool.and_eq_true]
    constructor
    · rw [fieldsWithin_iff]
      intro k v hk _
      exact ⟨v, hk, fieldsRefl f (k, v) (lookupKey_mem hk)⟩
    · rw [List.all_eq_true]
      rintro ⟨k, v⟩ hp
      exact lookupKey_isSome_of_mem hp
theorem itemsEq_refl : ∀ xs : List JSVal, itemsEq xs xs = true
  | [] => by simp [itemsEq]
  | x :: xs => by simp [itemsEq, deepEq_refl x, itemsEq_refl xs]
theorem fieldsRefl : ∀ (f : List (String × JSVal)) (p : String × JSVal), p ∈ f →
    deepEq p.2 p.2 = true
  | [], _, h => by simp at h
  | (k, v) :: t, p, h => by
    rcases List.mem_cons.mp h with h | h
    · subst h; exact deepEq_refl v
    · exact fieldsRefl t p h
end


/-- Structurally equal values have the same keys, with equal values. -/
theorem step_congr (k : String) {a b : JSVal} (h : deepEq a b = true) :
    sameValue (step k a) (step k b) = true := by
  cases a <;> cases b <;> simp [deepEq] at h <;> simp [step, sameValue]
  next f g =>
    obtain ⟨hfg, hgf⟩ := h
    rw [fieldsWithin_iff] at hfg
    cases hf : lookupKey k f with
    | some v =>
      obtain ⟨w, hw, hvw⟩ := hfg k v hf (by simp)
      simp [hw, sameValue, hvw]
    | none =>
      cases hg : lookupKey k g with
      | none => rfl
      | some w =>
        have := hgf k w (lookupKey_mem hg)
        simp [hf] at this

theorem resolve_append (p q : List String) :
    ∀ v : JSVal, resolve (p ++ q) v = (resolve p v).bind (resolve q) := by
  induction p with
  | nil => intro v; simp [resolve]
  | cons k ks ih =>
    intro v
    simp only [List.cons_append, resolve]
    cases step k v with
    | none => rfl
    | some w => exact ih w

theorem sameValue_resolve (q : List String) :
    ∀ {a b : Option JSVal}, sameValue a b = true →
      sameValue (a.bind (resolve q)) (b.bind (resolve q)) = true := by
  induction q with
  | nil =>
    intro a b h
    cases a <;> cases b <;> simpa [resolve] using h
  | cons k ks ih =>
    intro a b h
    cases a <;> cases b <;> simp [sameValue] at h
    · rfl
    · next x y =>
      have hs := step_congr k h
      show sameValue (resolve (k :: ks) x) (resolve (k :: ks) y) = true
      cases hx : step k x <;> cases hy : step k y <;> simp [hx, hy, sameValue] at hs
      · simp [resolve, hx, hy, sameValue]
      · next x1 y1 =>
        have := ih (a := some x1) (b := some y1) (by simpa [sameValue] using hs)
        simpa [resolve, hx, hy] using this

theorem itemsEq_mem : ∀ xs ys : List JSVal, itemsEq xs ys = true →
    (∀ x ∈ xs, ∃ y ∈ ys, deepEq x y = true) ∧
      (∀ y ∈ ys, ∃ x ∈ xs, deepEq x y = true)
  | [], [], _ => by simp
  | [], _ :: _, h => by simp [itemsEq] at h
  | _ :: _, [], h => by simp [itemsEq] at h
  | a :: xs, b :: ys, h => by
    simp only [itemsEq, Bool.and_eq_true] at h
    obtain ⟨hl, hr⟩ := itemsEq_mem xs ys h.2
    constructor
    · intro x hx
      rcases List.mem_cons.mp hx with rfl | hx
      · exact ⟨b, List.mem_cons_self _ _, h.1⟩
      · obtain ⟨y, hy, hxy⟩ := hl x hx
        exact ⟨y, List.mem_cons_of_mem _ hy, hxy⟩
    · intro y hy
      rcases List.mem_cons.mp hy with rfl | hy
      · exact ⟨a, List.mem_cons_self _ _, h.1⟩
      · obtain ⟨x, hx, hxy⟩ := hr y hy
        exact ⟨x, List.mem_cons_of_mem _ hx, hxy⟩

/-- What the set comparison of two note sequences computes. -/
theorem sameNotes_arr (xs ys : List JSVal) :
    sameNotes (some (.arr xs)) (some (.arr ys)) = true ↔
      (∀ x ∈ xs, ∃ y ∈ ys, deepEq x y = true) ∧
        (∀ y ∈ ys, ∃ x ∈ xs, deepEq x y = true) := by
  simp [sameNotes, List.all_eq_true, List.any_eq_true]

/-- Structurally equal values are equal as notes. -/
theorem sameNotes_of_sameValue {a b : Option JSVal} (h : sameValue a b = true) :
    sameNotes a b = true := by
  cases a with
  | none => simpa [sameNotes] using h
  | some x =>
    cases b with
    | none => simpa [sameNotes] using h
    | some y =>
      cases x <;> cases y <;> first
        | exact h
        | (simp only [sameValue, deepEq] at h
           exact (sameNotes_arr _ _).mpr (itemsEq_mem _ _ h))

/-- Nothing resolves below a sequence. -/
theorem sameValue_below_notes {a b : Option JSVal} (h : sameNotes a b = true)
    (k : String) (q : List String) :
    sameValue (a.bind (resolve (k :: q))) (b.bind (resolve (k :: q))) = true := by
  by_cases hs : sameValue a b = true
  · exact sameValue_resolve (k :: q) hs
  · cases a with
    | none => exact absurd (by simpa [sameNotes] using h) hs
    | some x =>
      cases b with
      | none => exact absurd (by simpa [sameNotes] using h) hs
      | some y =>
        cases x <;> cases y <;> first
          | exact absurd h hs
          | simp [resolve, step, sameValue]

/-- A difference below a path is a difference at the path. -/
theorem updated_of_updated_below (prev : Option JSVal) (cur : JSVal) (p q : List String)
    (h : updatedWithinPath prev cur (p ++ q) = true) :
    updatedWithinPath prev cur p = true := by
  cases prev with
  | none => simp [updatedWithinPath] at h
  | some P =>
    cases q with
    | nil => simpa using h
    | cons k q =>
      by_contra hc
      simp only [updatedWithinPath, resolve_append] at h hc
      by_cases hp : p = ["notes"]
      · -- below `notes` nothing resolves in a sequence
        subst hp
        have hpq : (["notes"] ++ k :: q : List String) ≠ ["notes"] := by simp
        simp only [hpq, ↓reduceIte, Bool.not_eq_true', Bool.not_eq_false] at h hc
        rw [sameValue_below_notes hc k q] at h
        exact Bool.noConfusion h
      · simp only [hp, if_false, Bool.not_eq_true', Bool.not_eq_false] at hc
        have hs := sameValue_resolve (k :: q) hc
        by_cases hpq : p ++ k :: q = ["notes"]
        · simp only [hpq, if_true, Bool.not_eq_true'] at h
          rw [sameNotes_of_sameValue hs] at h
          exact Bool.noConfusion h
        · simp only [hpq, if_false, Bool.not_eq_true'] at h
          rw [hs] at h
          exact Bool.noConfusion h

theorem not_updated_below (prev : Option JSVal) (cur : JSVal) (p q : List String)
    (h : updatedWithinPath prev cur p = false) :
    updatedWithinPath prev cur (p ++ q) = false := by
  by_contra hc
  rw [updated_of_updated_below prev cur p q (by simpa using hc)] at h
  exact Bool.noConfusion h

theorem sameValue_refl : ∀ a : Option JSVal, sameValue a a = true
  | none => rfl
  | some v => deepEq_refl v

theorem reconcile_currentState (mgr : WebAudioManager) (st : Option JSVal) (S : JSVal) :
    (reconcile mgr st S).currentState = some S := by
  unfold reconcile
  cases st with
  | none => rfl
  | some P =>
    simp only
    split <;> rfl


/-! ## Reading `currentState.effects[axis].options` -/

/-- A snapshot with an entry at `effects[axis]` is a mapping whose `effects`
is a mapping. -/
theorem resolve_axis_entry {C : JSVal} {axis : String} {entry : JSVal}
    (h : resolve ["effects", axis] C = some entry) :
    ∃ f g, C = .obj f ∧ lookupKey "effects" f = some (.obj g) ∧
      lookupKey axis g = some entry := by
  cases C <;> simp [resolve, step] at h
  next f =>
    cases hf : lookupKey "effects" f with
    | none => simp [hf] at h
    | some e =>
      cases e <;> simp [hf, step] at h
      next g =>
        cases hg : lookupKey axis g with
        | none => simp [hg] at h
        | some w =>
          simp [hg] at h
          exact ⟨f, g, rfl, hf, by rw [hg, h]⟩

theorem resolve_single (k : String) (v : JSVal) : resolve [k] v = step k v := by
  simp only [resolve]
  cases step k v <;> rfl

theorem resolve_options_of_entry {f g : List (String × JSVal)} (axis : String)
    {entry : JSVal} (hf : lookupKey "effects" f = some (.obj g))
    (hg : lookupKey axis g = some entry) :
    resolve ["effects", axis, "options"] (.obj f) = step "options" entry := by
  have : resolve ["effects", axis, "options"] (.obj f) = resolve ["options"] entry := by
    simp only [resolve, step, hf, hg]
  rw [this, resolve_single]

theorem getProp_of_ne_null {v : JSVal} (k : String) (h : v ≠ .null) :
    getProp (some v) k = .ok (step k v) := by
  cases v <;> simp [getProp, step] at h ⊢

theorem axisOptions_of_entry {f g : List (String × JSVal)} (axis : String)
    {entry : JSVal} (hf : lookupKey "effects" f = some (.obj g))
    (hg : lookupKey axis g = some entry) (hnull : entry ≠ .null) :
    axisOptions (.obj f) axis = .ok (step "options" entry) := by
  have h1 : getProp (some (.obj f)) "effects" = .ok (some (.obj g)) := by
    simp [getProp, hf]
  have h2 : getProp (some (.obj g)) axis = .ok (some entry) := by
    simp [getProp, hg]
  unfold axisOptions
  rw [h1]
  simp only
  rw [h2]
  exact getProp_of_ne_null "options" hnull

/-! ## The shape of the trace of a pass -/

theorem invoke_trace (mgr : WebAudioManager) (c : Call) (r : Run) :
    (r.invoke mgr c).trace = r.trace ∨
      ((r.invoke mgr c).trace = r.trace ++ [c] ∧ r.error = none) := by
  unfold Run.invoke
  cases h : r.error with
  | some e => exact Or.inl (by simp)
  | none => exact Or.inr ⟨rfl, rfl⟩

theorem invoke_error_of_error (mgr : WebAudioManager) (c : Call) (r : Run) (e : JSError)
    (h : r.error = some e) : r.invoke mgr c = r := by
  unfold Run.invoke
  simp [h]

theorem amountStep_trace (mgr : WebAudioManager) (upd : List String → Bool) (C : JSVal)
    (axis : String) (r : Run) :
    ∃ a, (amountStep mgr upd C axis r).trace = r.trace ++ a ∧ AmountCalls C axis a := by
  unfold amountStep
  simp only
  split
  · rcases invoke_trace mgr (.updateEffectAmount axis C) r with h | ⟨h, _⟩
    · exact ⟨[], by simp [h], Or.inl rfl⟩
    · exact ⟨_, h, Or.inr rfl⟩
  · exact ⟨[], by simp, Or.inl rfl⟩

theorem nameStep_trace (mgr : WebAudioManager) (upd : List String → Bool) (C : JSVal)
    (axis : String) (r : Run) :
    ∃ n, (nameStep mgr upd C axis r).trace = r.trace ++ n ∧ NameCalls n := by
  unfold nameStep
  simp only
  split
  · unfold Run.eval
    split
    · rcases invoke_trace mgr .destroyEffectChain r with h | ⟨h, _⟩
      · exact ⟨[], by simp [h], Or.inl rfl⟩
      · exact ⟨_, h, Or.inr (Or.inl rfl)⟩
    · next hnone =>
      have hd : (r.invoke mgr .destroyEffectChain).trace = r.trace ++ [.destroyEffectChain] := by
        rcases invoke_trace mgr .destroyEffectChain r with h | ⟨h, _⟩
        · exfalso
          unfold Run.invoke at hnone h
          cases hr : r.error with
          | some e => simp [hr] at hnone
          | none => simp [hr] at h
        · exact h
      split
      · exact ⟨_, hd, Or.inr (Or.inl rfl)⟩
      · next effects _ =>
        rcases invoke_trace mgr (.rebuildEffectChain (spread effects))
            (r.invoke mgr .destroyEffectChain) with h | ⟨h, _⟩
        · exact ⟨_, by rw [h, hd], Or.inr (Or.inl rfl)⟩
        · exact ⟨[.destroyEffectChain, .rebuildEffectChain (spread effects)],
            by rw [h, hd]; simp, Or.inr (Or.inr ⟨_, rfl⟩)⟩
  · exact ⟨[], by simp, Or.inl rfl⟩

theorem paramStep_trace (mgr : WebAudioManager) (upd : List String → Bool) (C : JSVal)
    (axis : String) (r : Run) :
    ∃ p, (paramStep mgr upd C axis r).trace = r.trace ++ p ∧ ParamCalls axis p := by
  unfold paramStep
  simp only
  split
  · unfold Run.eval
    split
    · exact ⟨[], by simp, Or.inl rfl⟩
    · split
      · exact ⟨[], by simp, Or.inl rfl⟩
      · next options _ =>
        rcases invoke_trace mgr (.updateEffectParameters axis options) r with h | ⟨h, _⟩
        · exact ⟨[], by simp [h], Or.inl rfl⟩
        · exact ⟨_, h, Or.inr ⟨_, rfl⟩⟩
  · exact ⟨[], by simp, Or.inl rfl⟩

/-- The callback for one axis appends calls of that axis, in the order amount,
name, parameters, and appends nothing when the axis is unchanged. -/
theorem axisBody_trace (mgr : WebAudioManager) (upd : List String → Bool) (C : JSVal)
    (axis : String) (r : Run) :
    ∃ l, (axisBody mgr upd C axis r).trace = r.trace ++ l ∧ AxisCalls C axis l ∧
      (l ≠ [] → upd ["effects", axis] = true) := by
  unfold axisBody
  split
  · exact ⟨[], by simp, ⟨[], [], [], rfl, Or.inl rfl, Or.inl rfl, Or.inl rfl⟩, by simp⟩
  · next hupd =>
    obtain ⟨a, ha, hac⟩ := amountStep_trace mgr upd C axis r
    obtain ⟨n, hn, hnc⟩ := nameStep_trace mgr upd C axis (amountStep mgr upd C axis r)
    obtain ⟨p, hp, hpc⟩ := paramStep_trace mgr upd C axis
      (nameStep mgr upd C axis (amountStep mgr upd C axis r))
    refine ⟨a ++ n ++ p, ?_, ⟨a, n, p, rfl, hac, hnc, hpc⟩, fun _ => by simpa using hupd⟩
    rw [hp, hn, ha]
    simp

/-- The loop over `x` and `y` appends the calls of `x`, then those of `y`. -/
theorem forEach_trace (mgr : WebAudioManager) (upd : List String → Bool) (C : JSVal)
    (r : Run) :
    ∃ xs ys, (forEach ["x", "y"] (axisBody mgr upd C) r).trace = r.trace ++ xs ++ ys ∧
      AxisCalls C "x" xs ∧ AxisCalls C "y" ys ∧
      (xs ≠ [] → upd ["effects", "x"] = true) ∧
      (ys ≠ [] → upd ["effects", "y"] = true) := by
  have hnil : ∀ axis, AxisCalls C axis [] :=
    fun _ => ⟨[], [], [], rfl, Or.inl rfl, Or.inl rfl, Or.inl rfl⟩
  simp only [forEach, List.foldl]
  cases hr : r.error with
  | some e => exact ⟨[], [], by simp [hr], hnil _, hnil _, by simp, by simp⟩
  | none =>
    simp only
    obtain ⟨xs, hxs, hxc, hxu⟩ := axisBody_trace mgr upd C "x" r
    cases hx : (axisBody mgr upd C "x" r).error with
    | some e => exact ⟨xs, [], by simp [hxs], hxc, hnil _, hxu, by simp⟩
    | none =>
      simp only
      obtain ⟨ys, hys, hyc, hyu⟩ := axisBody_trace mgr upd C "y" (axisBody mgr upd C "x" r)
      exact ⟨xs, ys, by rw [hys, hxs], hxc, hyc, hxu, hyu⟩

/-- The oscillator-bank rebuild at the start of a pass. -/
theorem bank_trace (mgr : WebAudioManager) (C : JSVal) :
    BankCalls C (((Run.mk [] none).invoke mgr .stopAllOscillators).invoke mgr
        (.createOscillators C)).trace ∧
    ((∀ t c, mgr.raises t c = false) →
      ((Run.mk [] none).invoke mgr .stopAllOscillators).invoke mgr (.createOscillators C) =
        ⟨[.stopAllOscillators, .createOscillators C], none⟩) := by
  constructor
  · cases h : mgr.raises [] .stopAllOscillators
    · exact Or.inr (Or.inr (by simp [Run.invoke, h]))
    · exact Or.inr (Or.inl (by simp [Run.invoke, h]))
  · intro hrel
    simp [Run.invoke, hrel]

/-- The trace of a pass with a previous snapshot: the oscillator-bank calls,
then the calls of axis `x`, then the calls of axis `y`. -/
theorem reconcile_trace_shape (mgr : WebAudioManager) (P C : JSVal) :
    ∃ bank xs ys,
      (reconcile mgr (some P) C).trace = bank ++ xs ++ ys ∧
      BankCalls C bank ∧
      (bank ≠ [] → updatedWithinPath (some P) C ["notes"] = true ∨
        updatedWithinPath (some P) C ["oscillators"] = true) ∧
      ((∀ t c, mgr.raises t c = false) →
        updatedWithinPath (some P) C ["notes"] = true ∨
          updatedWithinPath (some P) C ["oscillators"] = true →
        bank = [.stopAllOscillators, .createOscillators C]) ∧
      AxisCalls C "x" xs ∧ AxisCalls C "y" ys ∧
      (xs ≠ [] → updatedWithinPath (some P) C ["effects", "x"] = true) ∧
      (ys ≠ [] → updatedWithinPath (some P) C ["effects", "y"] = true) := by
  have hnil : ∀ axis, AxisCalls C axis [] :=
    fun _ => ⟨[], [], [], rfl, Or.inl rfl, Or.inl rfl, Or.inl rfl⟩
  unfold reconcile
  simp only
  split
  · next hs =>
    refine ⟨[], [], [], rfl, Or.inl rfl, by simp, ?_, hnil _, hnil _, by simp, by simp⟩
    intro _ hch
    simp only [Bool.or_eq_true, Bool.not_eq_true', Bool.or_eq_false_iff] at hs
    rcases hch with h | h
    · rw [hs.1.1] at h; exact Bool.noConfusion h
    · rw [hs.1.2] at h; exact Bool.noConfusion h
  · obtain ⟨hbank, hrel⟩ := bank_trace mgr C
    by_cases hch : (updatedWithinPath (some P) C ["notes"] ||
        updatedWithinPath (some P) C ["oscillators"]) = true
    · simp only [hch, if_true]
      have hch2 := hch
      simp only [Bool.or_eq_true] at hch2
      by_cases he : updatedWithinPath (some P) C ["effects"] = true
      · simp only [he, if_true]
        obtain ⟨xs, ys, ht, hx, hy, hxu, hyu⟩ := forEach_trace mgr
          (updatedWithinPath (some P) C) C
          (((Run.mk [] none).invoke mgr .stopAllOscillators).invoke mgr (.createOscillators C))
        exact ⟨_, xs, ys, ht, hbank, fun _ => hch2, fun h _ => by rw [hrel h], hx, hy, hxu, hyu⟩
      · simp only [he]
        exact ⟨_, [], [], by simp, hbank, fun _ => hch2, fun h _ => by rw [hrel h],
          hnil _, hnil _, by simp, by simp⟩
    · simp only [hch]
      have hch2 := hch
      simp only [Bool.or_eq_true] at hch2
      by_cases he : updatedWithinPath (some P) C ["effects"] = true
      · simp only [he, if_true]
        obtain ⟨xs, ys, ht, hx, hy, hxu, hyu⟩ := forEach_trace mgr
          (updatedWithinPath (some P) C) C (Run.mk [] none)
        exact ⟨[], xs, ys, by simpa using ht, Or.inl rfl, by simp,
          fun _ h => absurd h hch2, hx, hy, hxu, hyu⟩
      · simp only [he]
        exact ⟨[], [], [], by simp, Or.inl rfl, by simp, fun _ h => absurd h hch2,
          hnil _, hnil _, by simp, by simp⟩

/-- The calls of an axis are effect calls, tagged with that axis or not at
all. -/
theorem axisCalls_mem {C : JSVal} {axis : String} {l : List Call} (h : AxisCalls C axis l) :
    ∀ c ∈ l, c.isOscillatorCall = false ∧ (c.axisTag = none ∨ c.axisTag = some axis) := by
  obtain ⟨a, n, p, rfl, ha, hn, hp⟩ := h
  intro c hc
  simp only [List.mem_append] at hc
  rcases hc with (hc | hc) | hc
  · rcases ha with rfl | rfl
    · simp at hc
    · simp only [List.mem_singleton] at hc
      subst hc
      exact ⟨rfl, Or.inr rfl⟩
  · rcases hn with rfl | rfl | ⟨E, rfl⟩
    · simp at hc
    · simp only [List.mem_singleton] at hc
      subst hc
      exact ⟨rfl, Or.inl rfl⟩
    · simp only [List.mem_cons, List.mem_singleton, List.not_mem_nil, or_false] at hc
      rcases hc with rfl | rfl
      · exact ⟨rfl, Or.inl rfl⟩
      · exact ⟨rfl, Or.inl rfl⟩
  · rcases hp with rfl | ⟨o, rfl⟩
    · simp at hc
    · simp only [List.mem_singleton] at hc
      subst hc
      exact ⟨rfl, Or.inr rfl⟩

theorem bankCalls_mem {C : JSVal} {l : List Call} (h : BankCalls C l) :
    ∀ c ∈ l, c.isOscillatorCall = true ∧ c.axisTag = none := by
  intro c hc
  rcases h with rfl | rfl | rfl
  · simp at hc
  · simp only [List.mem_singleton] at hc
    subst hc
    exact ⟨rfl, rfl⟩
  · simp only [List.mem_cons, List.mem_singleton, List.not_mem_nil, or_false] at hc
    rcases hc with rfl | rfl
    · exact ⟨rfl, rfl⟩
    · exact ⟨rfl, rfl⟩

/-! ## When a pass raises, the manager calls not raising -/

theorem invoke_reliable_error (c : Call) (r : Run) :
    (r.invoke reliableManager c).error = r.error := by
  unfold Run.invoke
  cases h : r.error <;> simp [h, reliableManager]

theorem getProp_error_iff (C : JSVal) (k : String) :
    (∃ v, getProp (some C) k = .ok v) ↔ C ≠ .null := by
  cases C <;> simp [getProp]

/-- The expression `currentState.effects[axis].options` has a value exactly
when the current snapshot has an entry `effects[axis]` that is not null. -/
theorem axisOptions_ok_iff (C : JSVal) (axis : String) :
    (∃ o, axisOptions C axis = .ok o) ↔
      ∃ entry, resolve ["effects", axis] C = some entry ∧ entry ≠ .null := by
  constructor
  · rintro ⟨o, ho⟩
    cases C <;> simp [axisOptions, getProp] at ho
    next f =>
      cases hf : lookupKey "effects" f with
      | none => simp [hf, getProp] at ho
      | some e =>
        cases e <;> simp [hf, getProp] at ho
        next g =>
          cases hg : lookupKey axis g with
          | none => simp [hg] at ho
          | some entry =>
            refine ⟨entry, by simp [resolve, step, hf, hg], ?_⟩
            rintro rfl
            simp [hg] at ho
  · rintro ⟨entry, hentry, hnull⟩
    obtain ⟨f, g, rfl, hf, hg⟩ := resolve_axis_entry hentry
    exact ⟨_, axisOptions_of_entry axis hf hg hnull⟩

theorem amountStep_error (upd : List String → Bool) (C : JSVal) (axis : String) (r : Run) :
    (amountStep reliableManager upd C axis r).error = r.error := by
  unfold amountStep
  simp only
  split
  · exact invoke_reliable_error _ r
  · rfl

theorem nameStep_error (upd : List String → Bool) (C : JSVal) (axis : String) (r : Run)
    (hr : r.error = none) :
    (nameStep reliableManager upd C axis r).error = none ↔
      (upd ["effects", axis, "name"] = true → C ≠ .null) := by
  unfold nameStep
  simp only
  have hd : (r.invoke reliableManager .destroyEffectChain).error = none := by
    rw [invoke_reliable_error, hr]
  split
  · next hname =>
    simp only [hname, true_implies]
    unfold Run.eval
    simp only [hd]
    cases hg : getProp (some C) "effects" with
    | error e =>
      simp only
      constructor
      · intro h
        exact Option.noConfusion h
      · intro hnull
        obtain ⟨v, hv⟩ := (getProp_error_iff C "effects").mpr hnull
        rw [hv] at hg
        exact Except.noConfusion hg
    | ok effects =>
      simp only [invoke_reliable_error, hd, true_iff]
      exact (getProp_error_iff C "effects").mp ⟨_, hg⟩
  · next hname =>
    simp [hname, hr]

theorem paramStep_error (upd : List String → Bool) (C : JSVal) (axis : String) (r : Run)
    (hr : r.error = none) :
    (paramStep reliableManager upd C axis r).error = none ↔
      (upd ["effects", axis, "options"] = true → ∃ o, axisOptions C axis = .ok o) := by
  unfold paramStep
  simp only
  split
  · next hopt =>
    simp only [hopt, true_implies]
    unfold Run.eval
    simp only [hr]
    cases hg : axisOptions C axis with
    | error e => simp
    | ok o => simp [invoke_reliable_error, hr]
  · next hopt =>
    simp [hopt, hr]

/-- The callback for one axis returns normally exactly when neither of its two
property reads raises. -/
theorem axisBody_error (upd : List String → Bool) (C : JSVal) (axis : String) (r : Run)
    (hr : r.error = none) :
    (axisBody reliableManager upd C axis r).error = none ↔
      (upd ["effects", axis] = true →
        (upd ["effects", axis, "name"] = true → C ≠ .null) ∧
        (upd ["effects", axis, "options"] = true → ∃ o, axisOptions C axis = .ok o)) := by
  unfold axisBody
  split
  · next h =>
    simp only [Bool.not_eq_true'] at h
    simp [h, hr]
  · next h =>
    simp only [Bool.not_eq_true', Bool.not_eq_false] at h
    simp only [h, true_implies]
    have ha : (amountStep reliableManager upd C axis r).error = none := by
      rw [amountStep_error, hr]
    by_cases hn : (nameStep reliableManager upd C axis
        (amountStep reliableManager upd C axis r)).error = none
    · rw [paramStep_error upd C axis _ hn]
      have := (nameStep_error upd C axis _ ha).mp hn
      exact ⟨fun h => ⟨this, h⟩, fun h => h.2⟩
    · have hcond := mt (nameStep_error upd C axis _ ha).mpr hn
      constructor
      · intro hp
        exfalso
        apply hn
        -- an error raised by the name branch is still there after the last branch
        cases he : (nameStep reliableManager upd C axis
            (amountStep reliableManager upd C axis r)).error with
        | none => rfl
        | some e =>
          have : (paramStep reliableManager upd C axis (nameStep reliableManager upd C axis
              (amountStep reliableManager upd C axis r))).error = some e := by
            unfold paramStep Run.eval
            simp only [he]
            split <;> exact he
          rw [this] at hp
          exact Option.noConfusion hp
      · intro h
        exact absurd h.1 hcond

/-- The loop over `x` and `y` returns normally exactly when the callback does
for both axes. -/
theorem forEach_error (upd : List String → Bool) (C : JSVal) (r : Run)
    (hr : r.error = none) :
    (forEach ["x", "y"] (axisBody reliableManager upd C) r).error = none ↔
      (axisBody reliableManager upd C "x" r).error = none ∧
      (axisBody reliableManager upd C "y" (axisBody reliableManager upd C "x" r)).error =
        none := by
  simp only [forEach, List.foldl, hr]
  cases hx : (axisBody reliableManager upd C "x" r).error with
  | none => simp
  | some e => simp [hx]

/-- A pass with a previous snapshot returns normally exactly when, for each
axis, the two property reads of the callback have a value whenever they are
made. -/
theorem reconcile_error_iff (P C : JSVal) :
    (reconcile reliableManager (some P) C).error = none ↔
      ∀ axis, axis = "x" ∨ axis = "y" →
        (updatedWithinPath (some P) C ["effects", axis, "name"] = true → C ≠ .null) ∧
        (updatedWithinPath (some P) C ["effects", axis, "options"] = true →
          ∃ entry, resolve ["effects", axis] C = some entry ∧ entry ≠ .null) := by
  -- a read is made only when the axis, hence `effects`, differs
  have hguard : ∀ axis leaf, updatedWithinPath (some P) C ["effects", axis, leaf] = true →
      updatedWithinPath (some P) C ["effects", axis] = true ∧
      updatedWithinPath (some P) C ["effects"] = true := fun axis leaf h =>
    ⟨updated_of_updated_below (some P) C ["effects", axis] [leaf] h,
      updated_of_updated_below (some P) C ["effects"] [axis, leaf] h⟩
  have hcond : ∀ axis (r : Run), r.error = none →
      ((axisBody reliableManager (updatedWithinPath (some P) C) C axis r).error = none ↔
        (updatedWithinPath (some P) C ["effects", axis, "name"] = true → C ≠ .null) ∧
        (updatedWithinPath (some P) C ["effects", axis, "options"] = true →
          ∃ entry, resolve ["effects", axis] C = some entry ∧ entry ≠ .null)) := by
    intro axis r hr
    rw [axisBody_error _ C axis r hr, axisOptions_ok_iff]
    constructor
    · intro h
      exact ⟨fun hn => (h (hguard axis "name" hn).1).1 hn,
        fun ho => (h (hguard axis "options" ho).1).2 ho⟩
    · intro h _
      exact h
  have hall : (∀ axis, axis = "x" ∨ axis = "y" →
        (updatedWithinPath (some P) C ["effects", axis, "name"] = true → C ≠ .null) ∧
        (updatedWithinPath (some P) C ["effects", axis, "options"] = true →
          ∃ entry, resolve ["effects", axis] C = some entry ∧ entry ≠ .null)) ↔
      ((updatedWithinPath (some P) C ["effects", "x", "name"] = true → C ≠ .null) ∧
        (updatedWithinPath (some P) C ["effects", "x", "options"] = true →
          ∃ entry, resolve ["effects", "x"] C = some entry ∧ entry ≠ .null)) ∧
      ((updatedWithinPath (some P) C ["effects", "y", "name"] = true → C ≠ .null) ∧
        (updatedWithinPath (some P) C ["effects", "y", "options"] = true →
          ∃ entry, resolve ["effects", "y"] C = some entry ∧ entry ≠ .null)) := by
    constructor
    · intro h
      exact ⟨h "x" (Or.inl rfl), h "y" (Or.inr rfl)⟩
    · rintro ⟨hx, hy⟩ axis (rfl | rfl)
      · exact hx
      · exact hy
  rw [hall]
  -- without a difference in `effects` no read is made
  have hskip : updatedWithinPath (some P) C ["effects"] = false →
      ((updatedWithinPath (some P) C ["effects", "x", "name"] = true → C ≠ .null) ∧
        (updatedWithinPath (some P) C ["effects", "x", "options"] = true →
          ∃ entry, resolve ["effects", "x"] C = some entry ∧ entry ≠ .null)) ∧
      ((updatedWithinPath (some P) C ["effects", "y", "name"] = true → C ≠ .null) ∧
        (updatedWithinPath (some P) C ["effects", "y", "options"] = true →
          ∃ entry, resolve ["effects", "y"] C = some entry ∧ entry ≠ .null)) := by
    intro he
    have hno : ∀ axis leaf, updatedWithinPath (some P) C ["effects", axis, leaf] = true →
        False := fun axis leaf h => by
      rw [(hguard axis leaf h).2] at he
      exact Bool.noConfusion he
    exact ⟨⟨fun h => (hno _ _ h).elim, fun h => (hno _ _ h).elim⟩,
      ⟨fun h => (hno _ _ h).elim, fun h => (hno _ _ h).elim⟩⟩
  have hloop : ∀ r : Run, r.error = none →
      ((forEach ["x", "y"] (axisBody reliableManager (updatedWithinPath (some P) C) C)
          r).error = none ↔
      ((updatedWithinPath (some P) C ["effects", "x", "name"] = true → C ≠ .null) ∧
        (updatedWithinPath (some P) C ["effects", "x", "options"] = true →
          ∃ entry, resolve ["effects", "x"] C = some entry ∧ entry ≠ .null)) ∧
      ((updatedWithinPath (some P) C ["effects", "y", "name"] = true → C ≠ .null) ∧
        (updatedWithinPath (some P) C ["effects", "y", "options"] = true →
          ∃ entry, resolve ["effects", "y"] C = some entry ∧ entry ≠ .null))) := by
    intro r hr
    rw [forEach_error _ C r hr]
    constructor
    · rintro ⟨hx, hy⟩
      exact ⟨(hcond "x" r hr).mp hx, (hcond "y" _ hx).mp hy⟩
    · rintro ⟨hx, hy⟩
      have hx2 := (hcond "x" r hr).mpr hx
      exact ⟨hx2, (hcond "y" _ hx2).mpr hy⟩
  unfold reconcile
  simp only
  split
  · next hs =>
    simp only [Bool.or_eq_true, Bool.not_eq_true', Bool.or_eq_false_iff] at hs
    simp only [true_iff]
    exact hskip hs.2
  · by_cases he : updatedWithinPath (some P) C ["effects"] = true
    · simp only [he, if_true]
      split
      · exact hloop _ (by simp [invoke_reliable_error])
      · exact hloop _ rfl
    · simp only [Bool.not_eq_true] at he
      simp only [he, Bool.false_eq_true, if_false]
      have := hskip he
      split <;> simp only [invoke_reliable_error, true_iff] <;> exact this

/-! ## Sequences, and the loop when no axis entry differs -/

/-- Two sequences are equal when they have the same length and equal
elements, pairwise in order. -/
theorem itemsEq_iff : ∀ xs ys : List JSVal,
    itemsEq xs ys = true ↔ List.Forall₂ (fun a b => deepEq a b = true) xs ys
  | [], [] => by simp [itemsEq]
  | [], _ :: _ => by simp [itemsEq]
  | _ :: _, [] => by simp [itemsEq]
  | x :: xs, y :: ys => by
    simp only [itemsEq, Bool.and_eq_true, List.forall₂_cons, itemsEq_iff xs ys]

/-- The callback, with its skip written as a guard. -/
theorem axisBody_eq (mgr : WebAudioManager) (upd : List String → Bool) (C : JSVal) :
    axisBody mgr upd C = fun a r =>
      if upd ["effects", a] then
        paramStep mgr upd C a (nameStep mgr upd C a (amountStep mgr upd C a r))
      else r := by
  funext a r
  unfold axisBody
  cases upd ["effects", a] <;> simp

/-- The loop does nothing when neither axis entry differs. -/
theorem forEach_skip (mgr : WebAudioManager) (upd : List String → Bool) (C : JSVal) (r : Run)
    (hx : upd ["effects", "x"] = false) (hy : upd ["effects", "y"] = false) :
    forEach ["x", "y"] (axisBody mgr upd C) r = r := by
  simp only [forEach, List.foldl, axisBody, hx, hy]
  cases h : r.error <;> simp [h]

/-! ## The trace of a pass that completes -/

theorem invoke_reliable_trace (c : Call) (r : Run) (hr : r.error = none) :
    (r.invoke reliableManager c).trace = r.trace ++ [c] := by
  unfold Run.invoke
  simp [hr]

theorem amountStep_completed (upd : List String → Bool) (C : JSVal) (axis : String)
    (r : Run) (hr : r.error = none) :
    (amountStep reliableManager upd C axis r).trace = r.trace ++
      (if upd ["effects", axis, "amount"] then [.updateEffectAmount axis C] else []) := by
  unfold amountStep
  simp only
  split
  · exact invoke_reliable_trace _ r hr
  · simp

theorem nameStep_completed (upd : List String → Bool) (C : JSVal) (axis : String)
    (r : Run) (hr : r.error = none)
    (hres : (nameStep reliableManager upd C axis r).error = none) :
    (nameStep reliableManager upd C axis r).trace = r.trace ++
      (if upd ["effects", axis, "name"] then
        [.destroyEffectChain, .rebuildEffectChain (spread (step "effects" C))] else []) := by
  have hcond := (nameStep_error upd C axis r hr).mp hres
  unfold nameStep
  simp only
  split
  · next hname =>
    have hd : (r.invoke reliableManager .destroyEffectChain).error = none := by
      rw [invoke_reliable_error, hr]
    unfold Run.eval
    simp only [hd, getProp_of_ne_null "effects" (hcond hname)]
    rw [invoke_reliable_trace _ _ hd, invoke_reliable_trace _ _ hr]
    simp
  · simp

theorem paramStep_completed (upd : List String → Bool) (C : JSVal) (axis : String)
    (r : Run) (hr : r.error = none)
    (hres : (paramStep reliableManager upd C axis r).error = none) :
    (paramStep reliableManager upd C axis r).trace = r.trace ++
      (if upd ["effects", axis, "options"] then
        [.updateEffectParameters axis (resolve ["effects", axis, "options"] C)] else []) := by
  have hcond := (paramStep_error upd C axis r hr).mp hres
  unfold paramStep
  simp only
  split
  · next hopt =>
    obtain ⟨entry, hentry, hnull⟩ := (axisOptions_ok_iff C axis).mp (hcond hopt)
    obtain ⟨f, g, rfl, hf, hg⟩ := resolve_axis_entry hentry
    unfold Run.eval
    simp only [hr, axisOptions_of_entry axis hf hg hnull, resolve_options_of_entry axis hf hg]
    exact invoke_reliable_trace _ r hr
  · simp

theorem axisBody_completed (upd : List String → Bool) (C : JSVal) (axis : String)
    (r : Run) (hr : r.error = none)
    (hres : (axisBody reliableManager upd C axis r).error = none) :
    (axisBody reliableManager upd C axis r).trace =
      r.trace ++ completedAxisCalls upd C axis := by
  have hcond := (axisBody_error upd C axis r hr).mp hres
  unfold axisBody completedAxisCalls at *
  split
  · next h =>
    simp only [Bool.not_eq_true'] at h
    simp [h]
  · next h =>
    simp only [Bool.not_eq_true', Bool.not_eq_false] at h
    have ha : (amountStep reliableManager upd C axis r).error = none := by
      rw [amountStep_error, hr]
    have hn : (nameStep reliableManager upd C axis
        (amountStep reliableManager upd C axis r)).error = none :=
      (nameStep_error upd C axis _ ha).mpr (hcond h).1
    have hres2 : (paramStep reliableManager upd C axis (nameStep reliableManager upd C axis
        (amountStep reliableManager upd C axis r))).error = none := by
      simpa [h] using hres
    rw [paramStep_completed upd C axis _ hn hres2, nameStep_completed upd C axis _ ha hn,
      amountStep_completed upd C axis r hr]
    simp [h]

theorem forEach_completed (upd : List String → Bool) (C : JSVal) (r : Run)
    (hr : r.error = none)
    (hres : (forEach ["x", "y"] (axisBody reliableManager upd C) r).error = none) :
    (forEach ["x", "y"] (axisBody reliableManager upd C) r).trace =
      r.trace ++ completedAxisCalls upd C "x" ++ completedAxisCalls upd C "y" := by
  obtain ⟨hx, hy⟩ := (forEach_error upd C r hr).mp hres
  simp only [forEach, List.foldl, hr, hx]
  rw [axisBody_completed upd C "y" _ hx hy, axisBody_completed upd C "x" r hr hx]

theorem completedAxisCalls_skip (upd : List String → Bool) (C : JSVal) (axis : String)
    (h : upd ["effects", axis] = false) : completedAxisCalls upd C axis = [] := by
  simp [completedAxisCalls, h]

/-- The trace of a pass that completes, the manager calls not raising. -/
theorem reconcile_completed (P C : JSVal)
    (hres : (reconcile reliableManager (some P) C).error = none) :
    (reconcile reliableManager (some P) C).trace = completedTrace P C := by
  have hskip : updatedWithinPath (some P) C ["effects"] = false →
      completedAxisCalls (updatedWithinPath (some P) C) C "x" = [] ∧
      completedAxisCalls (updatedWithinPath (some P) C) C "y" = [] := fun he =>
    ⟨completedAxisCalls_skip _ C "x" (not_updated_below (some P) C ["effects"] ["x"] he),
      completedAxisCalls_skip _ C "y" (not_updated_below (some P) C ["effects"] ["y"] he)⟩
  unfold reconcile completedTrace at *
  simp only at hres ⊢
  split
  · next hs =>
    simp only [Bool.or_eq_true, Bool.not_eq_true', Bool.or_eq_false_iff] at hs
    simp [hs.1.1, hs.1.2, hskip hs.2]
  · next hs =>
    simp only [hs, if_false] at hres
    by_cases he : updatedWithinPath (some P) C ["effects"] = true
    · simp only [he, if_true] at hres ⊢
      by_cases hb : (updatedWithinPath (some P) C ["notes"] ||
          updatedWithinPath (some P) C ["oscillators"]) = true
      · simp only [hb, if_true] at hres ⊢
        rw [forEach_completed _ C _ (by simp [invoke_reliable_error]) hres]
        simp [Run.invoke, reliableManager]
      · simp only [hb, if_false] at hres ⊢
        rw [forEach_completed _ C _ rfl hres]
        simp
    · simp only [Bool.not_eq_true] at he
      simp only [he, Bool.false_eq_true, if_false, (hskip he).1, (hskip he).2,
        List.append_nil]
      split <;> simp [Run.invoke, reliableManager]

/-! ## Mappings with a known key set -/

/-- Mappings with equal values under every key are structurally equal. -/
theorem deepEq_obj_of_lookups (f g : List (String × JSVal))
    (h : ∀ k, sameValue (lookupKey k f) (lookupKey k g) = true) :
    deepEq (.obj f) (.obj g) = true := by
  rw [deepEq, Bool.and_eq_true]
  constructor
  · rw [fieldsWithin_iff]
    intro k v hk _
    have := h k
    rw [hk] at this
    cases hg : lookupKey k g with
    | none => simp [hg, sameValue] at this
    | some w => exact ⟨w, rfl, by simpa [hg, sameValue] using this⟩
  · rw [List.all_eq_true]
    rintro ⟨k, w⟩ hp
    have hsome := lookupKey_isSome_of_mem hp
    have := h k
    cases hf : lookupKey k f with
    | some v => rfl
    | none =>
      cases hg : lookupKey k g with
      | none => simp [hg] at hsome
      | some w2 => simp [hf, hg, sameValue] at this

theorem hasExactlyKeys_spec {ks : List String} {v : JSVal} (h : hasExactlyKeys ks v = true) :
    ∃ f, v = .obj f ∧ (∀ k, k ∉ ks → lookupKey k f = none) ∧
      (∀ k ∈ ks, ∃ w, lookupKey k f = some w) := by
  cases v <;> simp [hasExactlyKeys] at h
  next f =>
    refine ⟨f, rfl, ?_, ?_⟩
    · intro k hk
      cases hl : lookupKey k f with
      | none => rfl
      | some w => exact absurd (h.1 k w (lookupKey_mem hl)) hk
    · intro k hk
      have := h.2 k hk
      cases hl : lookupKey k f with
      | none => simp [hl] at this
      | some w => exact ⟨w, rfl⟩

/-- Two mappings with the key set `ks` that differ, differ under a key of
`ks`. -/
theorem differ_at_key {ks : List String} {v1 v2 : JSVal}
    (h1 : hasExactlyKeys ks v1 = true) (h2 : hasExactlyKeys ks v2 = true)
    (hd : deepEq v1 v2 = false) :
    ∃ k ∈ ks, sameValue (step k v1) (step k v2) = false := by
  obtain ⟨f, rfl, hf, _⟩ := hasExactlyKeys_spec h1
  obtain ⟨g, rfl, hg, _⟩ := hasExactlyKeys_spec h2
  by_contra hno
  have hall : ∀ k, sameValue (lookupKey k f) (lookupKey k g) = true := by
    intro k
    by_cases hk : k ∈ ks
    · cases hs : sameValue (step k (.obj f)) (step k (.obj g)) with
      | true => simpa [step] using hs
      | false => exact absurd ⟨k, hk, hs⟩ hno
    · rw [hf k hk, hg k hk]
      rfl
  rw [deepEq_obj_of_lookups f g hall] at hd
  exact Bool.noConfusion hd

theorem resolve_snoc (p : List String) (k : String) (v : JSVal) :
    resolve (p ++ [k]) v = (resolve p v).bind (step k) := by
  rw [resolve_append]
  cases resolve p v with
  | none => rfl
  | some w => exact resolve_single k w

/-- A difference at a path whose values are mappings with the key set `ks` is
a difference under one of these keys. -/
theorem updated_at_key (P C : JSVal) (p ks : List String) (vP vC : JSVal)
    (hp : p ≠ ["notes"]) (hp2 : p ≠ [])
    (hP : resolve p P = some vP) (hC : resolve p C = some vC)
    (h1 : hasExactlyKeys ks vP = true) (h2 : hasExactlyKeys ks vC = true)
    (hu : updatedWithinPath (some P) C p = true) :
    ∃ k ∈ ks, updatedWithinPath (some P) C (p ++ [k]) = true := by
  have hd : deepEq vP vC = false := by
    simpa [updatedWithinPath, hp, hP, hC, sameValue] using hu
  obtain ⟨k, hk, hs⟩ := differ_at_key h1 h2 hd
  have hpk : p ++ [k] ≠ ["notes"] := by
    cases p with
    | nil => exact absurd rfl hp2
    | cons a t => cases t <;> simp
  exact ⟨k, hk, by simp [updatedWithinPath, hpk, resolve_snoc, hP, hC, hs]⟩

/-- What `wellShapedEffects` gives, in terms of resolved paths. -/
theorem wellShapedEffects_spec {S : JSVal} (h : wellShapedEffects S = true) :
    ∃ effects, resolve ["effects"] S = some effects ∧
      hasExactlyKeys ["x", "y"] effects = true ∧
      ∀ axis, axis = "x" ∨ axis = "y" →
        ∃ entry, resolve ["effects", axis] S = some entry ∧
          hasExactlyKeys ["name", "amount", "options"] entry = true := by
  unfold wellShapedEffects at h
  cases he : resolve ["effects"] S with
  | none => simp [he] at h
  | some effects =>
    simp only [he, Bool.and_eq_true] at h
    obtain ⟨⟨hk, hx⟩, hy⟩ := h
    have hres : ∀ axis, resolve ["effects", axis] S = step axis effects := by
      intro axis
      have := resolve_snoc ["effects"] axis S
      simpa [he] using this
    refine ⟨effects, rfl, hk, ?_⟩
    rintro axis (rfl | rfl)
    · cases hs : step "x" effects with
      | none => simp [hs] at hx
      | some entry => exact ⟨entry, by rw [hres, hs], by simpa [hs] using hx⟩
    · cases hs : step "y" effects with
      | none => simp [hs] at hy
      | some entry => exact ⟨entry, by rw [hres, hs], by simpa [hs] using hy⟩

theorem hasExactlyKeys_ne_null {ks : List String} {v : JSVal}
    (h : hasExactlyKeys ks v = true) : v ≠ .null := by
  rintro rfl
  simp [hasExactlyKeys] at h

/-- A pass over a current snapshot with well-shaped effects completes. -/
theorem completes_of_wellShaped (P C : JSVal) (hC : wellShapedEffects C = true) :
    (reconcile reliableManager (some P) C).error = none := by
  obtain ⟨effects, he, _, hentries⟩ := wellShapedEffects_spec hC
  rw [reconcile_error_iff]
  intro axis ha
  refine ⟨fun _ => ?_, fun _ => ?_⟩
  · rintro rfl
    simp [resolve, step] at he
  · obtain ⟨entry, hentry, hk⟩ := hentries axis ha
    exact ⟨entry, hentry, hasExactlyKeys_ne_null hk⟩

theorem completedAxisCalls_eq_nil {upd : List String → Bool} {C : JSVal} {axis : String}
    (h : completedAxisCalls upd C axis = []) (hu : upd ["effects", axis] = true) :
    upd ["effects", axis, "amount"] = false ∧ upd ["effects", axis, "name"] = false ∧
      upd ["effects", axis, "options"] = false := by
  simp only [completedAxisCalls, hu, if_true, List.append_eq_nil] at h
  obtain ⟨⟨ha, hn⟩, ho⟩ := h
  refine ⟨?_, ?_, ?_⟩
  · cases hh : upd ["effects", axis, "amount"] <;> simp [hh] at ha ⊢
  · cases hh : upd ["effects", axis, "name"] <;> simp [hh] at hn ⊢
  · cases hh : upd ["effects", axis, "options"] <;> simp [hh] at ho ⊢

/-! ## Pairing and counting in a completed trace -/

theorem eachFollowedBy_of_none {p q : Call → Prop} {l : List Call}
    (h : ∀ c ∈ l, ¬ p c) : EachFollowedBy p q l := by
  intro before c after hl hp
  exact absurd hp (h c (by rw [hl]; simp))

theorem eachFollowedBy_pair {p q : Call → Prop} (c d : Call) (hq : q d) (hd : ¬ p d) :
    EachFollowedBy p q [c, d] := by
  intro before e after hl hp
  rcases before with _ | ⟨b, _ | ⟨b2, bs⟩⟩
  · simp only [List.nil_append, List.cons.injEq] at hl
    exact ⟨d, [], hl.2.symm, hq⟩
  · simp only [List.cons_append, List.nil_append, List.cons.injEq] at hl
    exact absurd (hl.2.1 ▸ hp) hd
  · simp at hl

theorem eachFollowedBy_append {p q : Call → Prop} {l1 l2 : List Call}
    (h1 : EachFollowedBy p q l1) (h2 : EachFollowedBy p q l2) :
    EachFollowedBy p q (l1 ++ l2) := by
  intro before c after hl hp
  rcases List.append_eq_append_iff.mp hl with ⟨m, hb, h⟩ | ⟨m, hb, h⟩
  · exact h2 m c after h hp
  · cases m with
    | nil =>
      simp only [List.nil_append] at h
      exact h2 [] c after (by simpa using h.symm) hp
    | cons e m =>
      simp only [List.cons_append, List.cons.injEq] at h
      obtain ⟨d, rest, hm, hq⟩ := h1 before c m (by rw [hb, h.1]) hp
      exact ⟨d, rest ++ l2, by rw [h.2, hm]; rfl, hq⟩

/-- In a completed trace `stopAllOscillators()` is followed by
`createOscillators(C)` and occurs at most once. -/
theorem completedTrace_stop (P C : JSVal) :
    EachFollowedBy (fun c => c = .stopAllOscillators) (fun d => d = .createOscillators C)
      (completedTrace P C) ∧ (completedTrace P C).countP Call.isStop ≤ 1 := by
  have haxis : ∀ axis, ∀ c ∈ completedAxisCalls (updatedWithinPath (some P) C) C axis,
      c ≠ .stopAllOscillators ∧ c.isStop = false := by
    intro axis c hc
    unfold completedAxisCalls at hc
    split at hc
    · simp only [List.mem_append] at hc
      rcases hc with (hc | hc) | hc
      · split at hc <;> simp at hc
        subst hc
        exact ⟨by simp, rfl⟩
      · split at hc <;> simp at hc
        rcases hc with rfl | rfl <;> exact ⟨by simp, rfl⟩
      · split at hc <;> simp at hc
        subst hc
        exact ⟨by simp, rfl⟩
    · simp at hc
  have hcount : ∀ axis,
      (completedAxisCalls (updatedWithinPath (some P) C) C axis).countP Call.isStop = 0 := by
    intro axis
    rw [List.countP_eq_zero]
    intro c hc
    simp [(haxis axis c hc).2]
  unfold completedTrace
  constructor
  · refine eachFollowedBy_append (eachFollowedBy_append ?_ ?_) ?_
    · split
      · exact eachFollowedBy_pair _ _ rfl (by simp)
      · exact eachFollowedBy_of_none (by simp)
    · exact eachFollowedBy_of_none (fun c hc => (haxis "x" c hc).1)
    · exact eachFollowedBy_of_none (fun c hc => (haxis "y" c hc).1)
  · simp only [List.countP_append, hcount, Nat.add_zero]
    split <;> simp [List.countP_cons, Call.isStop]

/-- In a completed trace `destroyEffectChain()` is followed by the rebuild from
the copy of `C.effects`. -/
theorem completedTrace_destroy (P C : JSVal) :
    EachFollowedBy (fun c => c = .destroyEffectChain)
      (fun d => d = .rebuildEffectChain (spread (step "effects" C)))
      (completedTrace P C) := by
  have haxis : ∀ axis, EachFollowedBy (fun c => c = .destroyEffectChain)
      (fun d => d = .rebuildEffectChain (spread (step "effects" C)))
      (completedAxisCalls (updatedWithinPath (some P) C) C axis) := by
    intro axis
    unfold completedAxisCalls
    split
    · refine eachFollowedBy_append (eachFollowedBy_append ?_ ?_) ?_
      · split
        · exact eachFollowedBy_of_none (by simp)
        · exact eachFollowedBy_of_none (by simp)
      · split
        · exact eachFollowedBy_pair _ _ rfl (by simp)
        · exact eachFollowedBy_of_none (by simp)
      · split
        · exact eachFollowedBy_of_none (by simp)
        · exact eachFollowedBy_of_none (by simp)
    · exact eachFollowedBy_of_none (by simp)
  unfold completedTrace
  refine eachFollowedBy_append (eachFollowedBy_append ?_ (haxis "x")) (haxis "y")
  split
  · exact eachFollowedBy_of_none (by simp)
  · exact eachFollowedBy_of_none (by simp)

/-- An axis destroys and rebuilds the chain once when its name differs. -/
theorem completedAxisCalls_count (P C : JSVal) (axis : String) :
    (completedAxisCalls (updatedWithinPath (some P) C) C axis).countP Call.isDestroy =
      (if updatedWithinPath (some P) C ["effects", axis, "name"] then 1 else 0) ∧
    (completedAxisCalls (updatedWithinPath (some P) C) C axis).countP Call.isRebuild =
      (if updatedWithinPath (some P) C ["effects", axis, "name"] then 1 else 0) := by
  unfold completedAxisCalls
  by_cases hn : updatedWithinPath (some P) C ["effects", axis, "name"] = true
  · have ha := updated_of_updated_below (some P) C ["effects", axis] ["name"] hn
    simp only [List.cons_append, List.nil_append] at ha
    simp only [ha, hn, if_true, List.countP_append]
    constructor
    · split <;> split <;> simp [List.countP_cons, Call.isDestroy]
    · split <;> split <;> simp [List.countP_cons, Call.isRebuild]
  · simp only [Bool.not_eq_true] at hn
    simp only [hn, Bool.false_eq_true, if_false, List.append_nil]
    constructor
    · split
      · simp only [List.countP_append]
        split <;> split <;> simp [List.countP_cons, Call.isDestroy]
      · simp
    · split
      · simp only [List.countP_append]
        split <;> split <;> simp [List.countP_cons, Call.isRebuild]
      · simp

/-- A completed trace destroys and rebuilds the chain once per changed name. -/
theorem completedTrace_count (P C : JSVal) :
    (completedTrace P C).countP Call.isDestroy = namesChanged P C ∧
    (completedTrace P C).countP Call.isRebuild = namesChanged P C := by
  have hn : namesChanged P C =
      (if updatedWithinPath (some P) C ["effects", "x", "name"] then 1 else 0) +
      (if updatedWithinPath (some P) C ["effects", "y", "name"] then 1 else 0) := by
    unfold namesChanged
    cases hx : updatedWithinPath (some P) C ["effects", "x", "name"] <;>
      cases hy : updatedWithinPath (some P) C ["effects", "y", "name"] <;>
      simp [List.filter, hx, hy]
  unfold completedTrace
  simp only [List.countP_append, (completedAxisCalls_count P C "x").1,
    (completedAxisCalls_count P C "y").1, (completedAxisCalls_count P C "x").2,
    (completedAxisCalls_count P C "y").2, hn]
  constructor
  · split <;> simp [List.countP_cons, Call.isDestroy]
  · split <;> simp [List.countP_cons, Call.isRebuild]

theorem bankCalls_length {C : JSVal} {l : List Call} (h : BankCalls C l) : l.length ≤ 2 := by
  rcases h with rfl | rfl | rfl <;> simp

theorem axisCalls_length {C : JSVal} {axis : String} {l : List Call}
    (h : AxisCalls C axis l) : l.length ≤ 4 := by
  obtain ⟨a, n, p, rfl, ha, hn, hp⟩ := h
  have h1 : a.length ≤ 1 := by rcases ha with rfl | rfl <;> simp
  have h2 : n.length ≤ 2 := by rcases hn with rfl | rfl | ⟨E, rfl⟩ <;> simp
  have h3 : p.length ≤ 1 := by rcases hp with rfl | ⟨o, rfl⟩ <;> simp
  simp only [List.length_append]
  omega

/-! ## The specified calls of a completed pass -/

theorem completedAxisCalls_toGraphCall (P C : JSVal) (a : String)
    (hmap : updatedWithinPath (some P) C ["effects", a, "name"] = true →
      ∃ g, resolve ["effects"] C = some (.obj g)) :
    (completedAxisCalls (updatedWithinPath (some P) C) C a).map Call.toGraphCall =
      if updatedWithinPath (some P) C ["effects", a] then
        onSnapshotAxis (updatedWithinPath (some P) C) C a else [] := by
  unfold completedAxisCalls onSnapshotAxis
  split
  · simp only [List.map_append]
    congr 1
    · congr 1
      · split <;> rfl
      · split
        · next hn =>
          obtain ⟨g, hg⟩ := hmap hn
          have hs : step "effects" C = some (.obj g) := by
            rw [← resolve_single]
            exact hg
          simp [Call.toGraphCall, hg, hs, spread]
        · rfl
    · split <;> rfl
  · rfl

/-! ## Pairing in the trace of any pass, the manager calls not raising -/

theorem amountStep_of_error (mgr : WebAudioManager) (upd : List String → Bool) (C : JSVal)
    (axis : String) (r : Run) (e : JSError) (h : r.error = some e) :
    amountStep mgr upd C axis r = r := by
  unfold amountStep
  simp only
  split
  · exact invoke_error_of_error mgr _ r e h
  · rfl

theorem eval_of_error {α : Type} (x : Except JSError α) (k : α → Run → Run) (r : Run)
    (e : JSError) (h : r.error = some e) : r.eval x k = r := by
  unfold Run.eval
  simp [h]

theorem nameStep_of_error (mgr : WebAudioManager) (upd : List String → Bool) (C : JSVal)
    (axis : String) (r : Run) (e : JSError) (h : r.error = some e) :
    nameStep mgr upd C axis r = r := by
  unfold nameStep
  simp only
  split
  · rw [invoke_error_of_error mgr _ r e h]
    exact eval_of_error _ _ r e h
  · rfl

theorem paramStep_of_error (mgr : WebAudioManager) (upd : List String → Bool) (C : JSVal)
    (axis : String) (r : Run) (e : JSError) (h : r.error = some e) :
    paramStep mgr upd C axis r = r := by
  unfold paramStep
  simp only
  split
  · exact eval_of_error _ _ r e h
  · rfl

/-- The name branch, the manager calls not raising: nothing, or the destroy
and the rebuild, or, on a null snapshot, the destroy and a `TypeError`. -/
theorem nameStep_cases (upd : List String → Bool) (C : JSVal) (axis : String) (r : Run)
    (hr : r.error = none) :
    nameStep reliableManager upd C axis r = r ∨
    ((nameStep reliableManager upd C axis r).trace = r.trace ++
        [.destroyEffectChain, .rebuildEffectChain (spread (resolve ["effects"] C))] ∧
      (nameStep reliableManager upd C axis r).error = none) ∨
    ((nameStep reliableManager upd C axis r).trace = r.trace ++ [.destroyEffectChain] ∧
      (nameStep reliableManager upd C axis r).error = some .typeError ∧ C = .null) := by
  by_cases hname : upd ["effects", axis, "name"] = true
  · have hd : (r.invoke reliableManager .destroyEffectChain).error = none := by
      rw [invoke_reliable_error, hr]
    have hdt := invoke_reliable_trace .destroyEffectChain r hr
    by_cases hnull : C = .null
    · refine Or.inr (Or.inr ?_)
      subst hnull
      unfold nameStep Run.eval
      simp only [hname, if_true, hd, getProp]
      refine ⟨?_, ?_, ?_⟩ <;> first | exact hdt | rfl | trivial
    · refine Or.inr (Or.inl ?_)
      have hres := (nameStep_error upd C axis r hr).mpr (fun _ => hnull)
      refine ⟨?_, hres⟩
      rw [nameStep_completed upd C axis r hr hres, resolve_single]
      simp [hname]
  · left
    unfold nameStep
    simp [hname]

theorem destroyPaired_of_none {C : JSVal} {l : List Call}
    (h : ∀ c ∈ l, c ≠ .destroyEffectChain) : DestroyPaired C l :=
  eachFollowedBy_of_none h

theorem amountCalls_no_destroy {C : JSVal} {axis : String} {a : List Call}
    (h : AmountCalls C axis a) : ∀ c ∈ a, c ≠ .destroyEffectChain := by
  intro c hc
  rcases h with rfl | rfl
  · simp at hc
  · simp only [List.mem_singleton] at hc
    subst hc
    simp

theorem paramCalls_no_destroy {axis : String} {p : List Call}
    (h : ParamCalls axis p) : ∀ c ∈ p, c ≠ .destroyEffectChain := by
  intro c hc
  rcases h with rfl | ⟨o, rfl⟩
  · simp at hc
  · simp only [List.mem_singleton] at hc
    subst hc
    simp

/-- The callback for one axis appends calls in which every destroy is paired,
or, on a null snapshot, such calls and a last destroy, and then it raised. -/
theorem axisBody_paired (upd : List String → Bool) (C : JSVal) (axis : String) (r : Run)
    (hr : r.error = none) :
    ∃ l, (axisBody reliableManager upd C axis r).trace = r.trace ++ l ∧
      (DestroyPaired C l ∨
        ∃ l', l = l' ++ [.destroyEffectChain] ∧ DestroyPaired C l' ∧ C = .null ∧
          (axisBody reliableManager upd C axis r).error = some .typeError) := by
  unfold axisBody
  split
  · exact ⟨[], by simp, Or.inl (destroyPaired_of_none (by simp))⟩
  · obtain ⟨a, ha, hac⟩ := amountStep_trace reliableManager upd C axis r
    have hae : (amountStep reliableManager upd C axis r).error = none := by
      rw [amountStep_error, hr]
    have hagood : DestroyPaired C a := destroyPaired_of_none (amountCalls_no_destroy hac)
    rcases nameStep_cases upd C axis (amountStep reliableManager upd C axis r) hae with
      hsame | ⟨ht, he⟩ | ⟨ht, he, hnull⟩
    · rw [hsame]
      obtain ⟨p, hp, hpc⟩ := paramStep_trace reliableManager upd C axis
        (amountStep reliableManager upd C axis r)
      refine ⟨a ++ p, by rw [hp, ha, List.append_assoc], Or.inl ?_⟩
      exact eachFollowedBy_append hagood (destroyPaired_of_none (paramCalls_no_destroy hpc))
    · obtain ⟨p, hp, hpc⟩ := paramStep_trace reliableManager upd C axis
        (nameStep reliableManager upd C axis (amountStep reliableManager upd C axis r))
      refine ⟨a ++ [.destroyEffectChain, .rebuildEffectChain (spread (resolve ["effects"] C))]
        ++ p, by rw [hp, ht, ha]; simp, Or.inl ?_⟩
      exact eachFollowedBy_append
        (eachFollowedBy_append hagood (eachFollowedBy_pair _ _ rfl (by simp)))
        (destroyPaired_of_none (paramCalls_no_destroy hpc))
    · rw [paramStep_of_error reliableManager upd C axis _ .typeError he]
      exact ⟨a ++ [.destroyEffectChain], by rw [ht, ha, List.append_assoc],
        Or.inr ⟨a, rfl, hagood, hnull, he⟩⟩

/-- The loop over `x` and `y`, likewise. -/
theorem forEach_paired (upd : List String → Bool) (C : JSVal) (r : Run)
    (hr : r.error = none) :
    ∃ l, (forEach ["x", "y"] (axisBody reliableManager upd C) r).trace = r.trace ++ l ∧
      (DestroyPaired C l ∨
        ∃ l', l = l' ++ [.destroyEffectChain] ∧ DestroyPaired C l' ∧ C = .null ∧
          (forEach ["x", "y"] (axisBody reliableManager upd C) r).error =
            some .typeError) := by
  obtain ⟨lx, hlx, hx⟩ := axisBody_paired upd C "x" r hr
  simp only [forEach, List.foldl, hr]
  cases hex : (axisBody reliableManager upd C "x" r).error with
  | some e => exact ⟨lx, hlx, by simpa [hex] using hx⟩
  | none =>
    simp only
    have hxgood : DestroyPaired C lx := by
      rcases hx with h | ⟨_, _, _, _, he⟩
      · exact h
      · rw [hex] at he
        exact Option.noConfusion he
    obtain ⟨ly, hly, hy⟩ := axisBody_paired upd C "y" _ hex
    refine ⟨lx ++ ly, by rw [hly, hlx, List.append_assoc], ?_⟩
    rcases hy with h | ⟨l', rfl, hl', hnull, he⟩
    · exact Or.inl (eachFollowedBy_append hxgood h)
    · exact Or.inr ⟨lx ++ l', by simp, eachFollowedBy_append hxgood hl', hnull, he⟩

/-- The trace of a pass, the manager calls not raising: every destroy is
paired, or the trace ends with a destroy on a null snapshot and the pass
raised. -/
theorem reconcile_paired (P C : JSVal) :
    DestroyPaired C (reconcile reliableManager (some P) C).trace ∨
      ∃ l', (reconcile reliableManager (some P) C).trace = l' ++ [.destroyEffectChain] ∧
        DestroyPaired C l' ∧ C = .null ∧
        (reconcile reliableManager (some P) C).error = some .typeError := by
  have hbank : DestroyPaired C [.stopAllOscillators, .createOscillators C] :=
    destroyPaired_of_none (by simp)
  unfold reconcile
  simp only
  split
  · exact Or.inl (destroyPaired_of_none (by simp))
  · by_cases he : updatedWithinPath (some P) C ["effects"] = true
    · simp only [he, if_true]
      split
      · obtain ⟨l, hl, h⟩ := forEach_paired (updatedWithinPath (some P) C) C
          (((Run.mk [] none).invoke reliableManager .stopAllOscillators).invoke
            reliableManager (.createOscillators C)) (by simp [invoke_reliable_error])
        have ht : (((Run.mk [] none).invoke reliableManager .stopAllOscillators).invoke
            reliableManager (.createOscillators C)).trace =
            [.stopAllOscillators, .createOscillators C] := by
          simp [Run.invoke, reliableManager]
        rw [hl, ht]
        rcases h with h | ⟨l', rfl, hl', hnull, herr⟩
        · exact Or.inl (eachFollowedBy_append hbank h)
        · exact Or.inr ⟨[.stopAllOscillators, .createOscillators C] ++ l', by simp,
            eachFollowedBy_append hbank hl', hnull, herr⟩
      · obtain ⟨l, hl, h⟩ := forEach_paired (updatedWithinPath (some P) C) C
          (Run.mk [] none) rfl
        rw [hl]
        simp only [List.nil_append]
        rcases h with h | ⟨l', rfl, hl', hnull, herr⟩
        · exact Or.inl h
        · exact Or.inr ⟨l', rfl, hl', hnull, herr⟩
    · simp only [Bool.not_eq_true] at he
      simp only [he, Bool.false_eq_true, if_false]
      split
      · exact Or.inl (by simpa [Run.invoke, reliableManager] using hbank)
      · exact Or.inl (destroyPaired_of_none (by simp))

/-- The stop and create calls of a pass, the manager calls not raising. -/
theorem reconcile_stop_paired (P C : JSVal) :
    EachFollowedBy (fun c => c = .stopAllOscillators) (fun d => d = .createOscillators C)
      (reconcile reliableManager (some P) C).trace ∧
    (reconcile reliableManager (some P) C).trace.countP Call.isStop ≤ 1 := by
  obtain ⟨bank, xs, ys, ht, hb, hbch, hrel, hx, hy, _, _⟩ :=
    reconcile_trace_shape reliableManager P C
  have hbank : bank = [] ∨ bank = [.stopAllOscillators, .createOscillators C] := by
    by_cases hne : bank = []
    · exact Or.inl hne
    · exact Or.inr (hrel (fun _ _ => rfl) (hbch hne))
  have haxis : ∀ axis l, AxisCalls C axis l →
      (∀ c ∈ l, ¬ c = .stopAllOscillators) ∧ l.countP Call.isStop = 0 := by
    intro axis l hl
    have hno : ∀ c ∈ l, c.isStop = false := by
      intro c hc
      have := (axisCalls_mem hl c hc).1
      cases c <;> simp [Call.isOscillatorCall, Call.isStop] at this ⊢
    refine ⟨?_, ?_⟩
    · intro c hc hcs
      have := hno c hc
      rw [hcs] at this
      simp [Call.isStop] at this
    · rw [List.countP_eq_zero]
      intro c hc
      simp [hno c hc]
  rw [ht]
  constructor
  · refine eachFollowedBy_append (eachFollowedBy_append ?_
      (eachFollowedBy_of_none (haxis "x" xs hx).1)) (eachFollowedBy_of_none (haxis "y" ys hy).1)
    rcases hbank with rfl | rfl
    · exact eachFollowedBy_of_none (by simp)
    · exact eachFollowedBy_pair _ _ rfl (by simp)
  · simp only [List.countP_append, (haxis "x" xs hx).2, (haxis "y" ys hy).2, Nat.add_zero]
    rcases hbank with rfl | rfl <;> simp [List.countP_cons, Call.isStop]

/-! ## The testable properties -/

/-- C1. Baseline no-op: on a fresh controller (the stored state is still
undefined) a pass that observes the snapshot `S` makes no call on
WebAudioManager, whatever the manager, returns normally, and leaves `S` as the
stored state. -/
theorem baseline_noop (mgr : WebAudioManager) (S : JSVal) :
    (reconcile mgr none S).trace = [] ∧
    (reconcile mgr none S).error = none ∧
    (reconcile mgr none S).currentState = some S :=
  ⟨rfl, rfl, rfl⟩

/-- C2. Idempotent identical snapshot: when a pass observes `S` and the next
pass observes a structurally equal value, the second pass makes no call on
WebAudioManager and returns normally. -/
theorem identical_snapshot_no_calls (mgr mgr2 : WebAudioManager) (st : Option JSVal)
    (S S2 : JSVal) (h : deepEq S S2 = true) :
    (reconcile mgr2 (reconcile mgr st S).currentState S2).trace = [] ∧
    (reconcile mgr2 (reconcile mgr st S).currentState S2).error = none := by
  rw [reconcile_currentState]
  have key : ∀ p : List String, updatedWithinPath (some S) S2 p = false := by
    intro p
    have hroot : updatedWithinPath (some S) S2 [] = false := by
      simpa [updatedWithinPath, resolve, sameValue] using h
    exact not_updated_below (some S) S2 [] p hroot
  simp [reconcile, key]

/-- The sample state, then the same state with its keys in another order. -/
theorem identical_snapshot_no_calls_witness :
    deepEq stateExample stateExampleReordered = true ∧
    (reconcile reliableManager (reconcile reliableManager none stateExample).currentState
        stateExampleReordered).trace = [] ∧
    (reconcile reliableManager (reconcile reliableManager none stateExample).currentState
        stateExampleReordered).error = none :=
  ⟨by decide, identical_snapshot_no_calls reliableManager reliableManager none
    stateExample stateExampleReordered (by decide)⟩


/-- C3. Notes-only change isolation: when `S1` and `S2` differ in `notes` and
neither in `oscillators` nor in `effects`, the pass that observes `S2` after
`S1` makes exactly the calls `stopAllOscillators()`, `createOscillators(S2)`,
in that order, hence no effect-related call, and returns normally. -/
theorem notes_only_change (mgr : WebAudioManager) (st : Option JSVal) (S1 S2 : JSVal)
    (hn : updatedWithinPath (some S1) S2 ["notes"] = true)
    (ho : updatedWithinPath (some S1) S2 ["oscillators"] = false)
    (he : updatedWithinPath (some S1) S2 ["effects"] = false) :
    (reconcile reliableManager (reconcile mgr st S1).currentState S2).trace =
      [.stopAllOscillators, .createOscillators S2] ∧
    (reconcile reliableManager (reconcile mgr st S1).currentState S2).error = none := by
  rw [reconcile_currentState]
  simp [reconcile, hn, ho, he, Run.invoke, reliableManager]

/-- The sample state, then the same state with the note `g4` released. -/
theorem notes_only_change_witness :
    updatedWithinPath (some stateExample)
      (sampleState ["c4", "e4"] filterEntry distortionEntry) ["notes"] = true ∧
    (reconcile reliableManager (reconcile reliableManager none stateExample).currentState
        (sampleState ["c4", "e4"] filterEntry distortionEntry)).trace =
      [.stopAllOscillators,
        .createOscillators (sampleState ["c4", "e4"] filterEntry distortionEntry)] :=
  ⟨by decide, (notes_only_change reliableManager none stateExample
    (sampleState ["c4", "e4"] filterEntry distortionEntry)
    (by decide) (by decide) (by decide)).1⟩

/-- C4. Amount-only change isolation: when `S1` and `S2` are the same in
`notes`, in `oscillators`, in `effects.y` and in the name and the options of
`effects.x`, and `effects.x.amount` differs, the pass that observes `S2` after
`S1` makes exactly one call, `updateEffectAmount` with axis `x` and, as its
`amount`, the entire snapshot `S2`; it returns normally. -/
theorem amount_only_change (mgr : WebAudioManager) (st : Option JSVal) (S1 S2 : JSVal)
    (hn : updatedWithinPath (some S1) S2 ["notes"] = false)
    (ho : updatedWithinPath (some S1) S2 ["oscillators"] = false)
    (hy : updatedWithinPath (some S1) S2 ["effects", "y"] = false)
    (hxn : updatedWithinPath (some S1) S2 ["effects", "x", "name"] = false)
    (hxo : updatedWithinPath (some S1) S2 ["effects", "x", "options"] = false)
    (hxa : updatedWithinPath (some S1) S2 ["effects", "x", "amount"] = true) :
    (reconcile reliableManager (reconcile mgr st S1).currentState S2).trace =
      [.updateEffectAmount "x" S2] ∧
    (reconcile reliableManager (reconcile mgr st S1).currentState S2).error = none := by
  rw [reconcile_currentState]
  have he := updated_of_updated_below (some S1) S2 ["effects"] ["x", "amount"] hxa
  have hx := updated_of_updated_below (some S1) S2 ["effects", "x"] ["amount"] hxa
  simp only [List.cons_append, List.nil_append] at he hx
  simp [reconcile, forEach, axisBody, amountStep, nameStep, paramStep, hn, ho, he, hx, hy,
    hxn, hxo, hxa, Run.invoke, reliableManager]

/-- The sample state, then the same state with the amount of axis `x` moved. -/
theorem amount_only_change_witness :
    updatedWithinPath (some stateExample)
      (sampleState ["c4", "e4", "g4"]
        (effectEntry "filter" 41 [("type", .str "lowpass"), ("resonance", .str "5")])
        distortionEntry) ["effects", "x", "amount"] = true ∧
    (reconcile reliableManager (reconcile reliableManager none stateExample).currentState
        (sampleState ["c4", "e4", "g4"]
          (effectEntry "filter" 41 [("type", .str "lowpass"), ("resonance", .str "5")])
          distortionEntry)).trace =
      [.updateEffectAmount "x" (sampleState ["c4", "e4", "g4"]
          (effectEntry "filter" 41 [("type", .str "lowpass"), ("resonance", .str "5")])
          distortionEntry)] :=
  ⟨by decide, (amount_only_change reliableManager none stateExample
    (sampleState ["c4", "e4", "g4"]
      (effectEntry "filter" 41 [("type", .str "lowpass"), ("resonance", .str "5")])
      distortionEntry)
    (by decide) (by decide) (by decide) (by decide) (by decide) (by decide)).1⟩

/-- C6. Unrelated-domain inertness: when `notes`, `oscillators` and `effects`
are structurally equal in `S1` and `S2` (the snapshots differ at most in other
top-level fields), the pass that observes `S2` after `S1` makes no call on
WebAudioManager and returns normally. -/
theorem unrelated_domain_inert (mgr mgr2 : WebAudioManager) (st : Option JSVal)
    (S1 S2 : JSVal)
    (hn : updatedWithinPath (some S1) S2 ["notes"] = false)
    (ho : updatedWithinPath (some S1) S2 ["oscillators"] = false)
    (he : updatedWithinPath (some S1) S2 ["effects"] = false) :
    (reconcile mgr2 (reconcile mgr st S1).currentState S2).trace = [] ∧
    (reconcile mgr2 (reconcile mgr st S1).currentState S2).error = none := by
  rw [reconcile_currentState]
  simp [reconcile, hn, ho, he]

/-- The sample state, then the same state with an `onboarding` field added. -/
theorem unrelated_domain_inert_witness :
    updatedWithinPath (some stateExample)
      (.obj [("onboarding", .str "done"), ("effects", .obj [("y", distortionEntry),
        ("x", filterEntry)]), ("notes", .arr [.str "c4", .str "e4", .str "g4"]),
        ("oscillators", .arr [
          .obj [("waveform", .str "sawtooth"), ("gain", .num 15),
            ("octaveAdjustment", .num 0)],
          .obj [("waveform", .str "square"), ("gain", .num 50),
            ("octaveAdjustment", .num (-1))]])]) [] = true ∧
    (reconcile reliableManager (reconcile reliableManager none stateExample).currentState
      (.obj [("onboarding", .str "done"), ("effects", .obj [("y", distortionEntry),
        ("x", filterEntry)]), ("notes", .arr [.str "c4", .str "e4", .str "g4"]),
        ("oscillators", .arr [
          .obj [("waveform", .str "sawtooth"), ("gain", .num 15),
            ("octaveAdjustment", .num 0)],
          .obj [("waveform", .str "square"), ("gain", .num 50),
            ("octaveAdjustment", .num (-1))]])])).trace = [] :=
  ⟨by decide, (unrelated_domain_inert reliableManager reliableManager none stateExample _
    (by decide) (by decide) (by decide)).1⟩


/-- C5. Combined-change firing: when `S1` and `S2` are the same in `notes`, in
`oscillators`, in `effects.x` and in `effects.y.amount`, both
`effects.y.name` and `effects.y.options` differ, and `S2` has an entry
`effects.y`, the pass that observes `S2` after `S1` makes exactly the calls
`destroyEffectChain()`, `rebuildEffectChain(E)` with `E` structurally equal to
`S2.effects`, and `updateEffectParameters` with axis `y` and the options
`S2.effects.y.options`, in that order; it returns normally. -/
theorem combined_change_firing (mgr : WebAudioManager) (st : Option JSVal)
    (S1 S2 entry : JSVal)
    (hn : updatedWithinPath (some S1) S2 ["notes"] = false)
    (ho : updatedWithinPath (some S1) S2 ["oscillators"] = false)
    (hx : updatedWithinPath (some S1) S2 ["effects", "x"] = false)
    (hya : updatedWithinPath (some S1) S2 ["effects", "y", "amount"] = false)
    (hyn : updatedWithinPath (some S1) S2 ["effects", "y", "name"] = true)
    (hyo : updatedWithinPath (some S1) S2 ["effects", "y", "options"] = true)
    (hentry : resolve ["effects", "y"] S2 = some entry) (hnull : entry ≠ .null) :
    ∃ E effects,
      resolve ["effects"] S2 = some effects ∧ deepEq E effects = true ∧
      (reconcile reliableManager (reconcile mgr st S1).currentState S2).trace =
        [.destroyEffectChain, .rebuildEffectChain E,
          .updateEffectParameters "y" (resolve ["effects", "y", "options"] S2)] ∧
      (reconcile reliableManager (reconcile mgr st S1).currentState S2).error = none := by
  rw [reconcile_currentState]
  have he := updated_of_updated_below (some S1) S2 ["effects"] ["y", "name"] hyn
  have hy := updated_of_updated_below (some S1) S2 ["effects", "y"] ["name"] hyn
  simp only [List.cons_append, List.nil_append] at he hy
  obtain ⟨f, g, rfl, hf, hg⟩ := resolve_axis_entry hentry
  refine ⟨.obj g, .obj g, by simp [resolve, step, hf], deepEq_refl _, ?_⟩
  have hopt := axisOptions_of_entry "y" hf hg hnull
  have hres := resolve_options_of_entry "y" hf hg
  simp [reconcile, forEach, axisBody, amountStep, nameStep, paramStep, hn, ho, he, hx, hy,
    hya, hyn, hyo, Run.invoke, Run.eval, reliableManager, hopt, hres, getProp, hf, spread]

/-- The sample state, then the same state with the effect of axis `y` swapped. -/
theorem combined_change_firing_witness :
    updatedWithinPath (some stateExample)
      (sampleState ["c4", "e4", "g4"] filterEntry
        (effectEntry "delay" 75 [("feedback", .num 30)])) ["effects", "y", "name"] = true ∧
    updatedWithinPath (some stateExample)
      (sampleState ["c4", "e4", "g4"] filterEntry
        (effectEntry "delay" 75 [("feedback", .num 30)])) ["effects", "y", "options"] = true ∧
    ∃ E effects,
      resolve ["effects"] (sampleState ["c4", "e4", "g4"] filterEntry
        (effectEntry "delay" 75 [("feedback", .num 30)])) = some effects ∧
      deepEq E effects = true ∧
      (reconcile reliableManager (reconcile reliableManager none stateExample).currentState
        (sampleState ["c4", "e4", "g4"] filterEntry
          (effectEntry "delay" 75 [("feedback", .num 30)]))).trace =
        [.destroyEffectChain, .rebuildEffectChain E,
          .updateEffectParameters "y" (resolve ["effects", "y", "options"]
            (sampleState ["c4", "e4", "g4"] filterEntry
              (effectEntry "delay" 75 [("feedback", .num 30)])))] ∧
      (reconcile reliableManager (reconcile reliableManager none stateExample).currentState
        (sampleState ["c4", "e4", "g4"] filterEntry
          (effectEntry "delay" 75 [("feedback", .num 30)]))).error = none :=
  ⟨by decide, by decide, combined_change_firing reliableManager none stateExample
    (sampleState ["c4", "e4", "g4"] filterEntry (effectEntry "delay" 75 [("feedback", .num 30)]))
    (effectEntry "delay" 75 [("feedback", .num 30)])
    (by decide) (by decide) (by decide) (by decide) (by decide) (by decide) rfl
    (by simp [effectEntry])⟩

/-- C7. Oscillator-bank rebuild exactly when needed: in a pass with a previous
snapshot `P` and the current snapshot `C` (the manager calls not raising), the
trace contains `stopAllOscillators()` and `createOscillators(C)` if and only
if `notes` differs or `oscillators` differs; and when neither differs, as in a
pass in which only `effects` changed, the trace contains no oscillator call at
all. -/
theorem oscillator_rebuild_iff (P C : JSVal) :
    ((Call.stopAllOscillators ∈ (reconcile reliableManager (some P) C).trace ∧
        Call.createOscillators C ∈ (reconcile reliableManager (some P) C).trace) ↔
      (updatedWithinPath (some P) C ["notes"] = true ∨
        updatedWithinPath (some P) C ["oscillators"] = true)) ∧
    (¬ (updatedWithinPath (some P) C ["notes"] = true ∨
        updatedWithinPath (some P) C ["oscillators"] = true) →
      ∀ c ∈ (reconcile reliableManager (some P) C).trace, c.isOscillatorCall = false) := by
  obtain ⟨bank, xs, ys, ht, hb, hbch, hrel, hx, hy, _, _⟩ :=
    reconcile_trace_shape reliableManager P C
  have hno : ¬ (updatedWithinPath (some P) C ["notes"] = true ∨
      updatedWithinPath (some P) C ["oscillators"] = true) →
      ∀ c ∈ (reconcile reliableManager (some P) C).trace, c.isOscillatorCall = false := by
    intro hch c hc
    have hbank : bank = [] := by
      by_contra hne
      exact hch (hbch hne)
    rw [ht, hbank] at hc
    simp only [List.nil_append, List.mem_append] at hc
    rcases hc with hc | hc
    · exact (axisCalls_mem hx c hc).1
    · exact (axisCalls_mem hy c hc).1
  refine ⟨⟨?_, ?_⟩, hno⟩
  · rintro ⟨hstop, _⟩
    by_contra hch
    have := hno hch _ hstop
    simp [Call.isOscillatorCall] at this
  · intro hch
    have hbank := hrel (fun _ _ => rfl) hch
    rw [ht, hbank]
    simp

/-- C8. Fixed call order: the trace of a pass, whatever the manager, is made
of the oscillator-bank calls, then the calls of axis `x`, then the calls of
axis `y`; the calls of an axis are `updateEffectAmount`, then
`destroyEffectChain` and `rebuildEffectChain`, then `updateEffectParameters`;
an axis contributes calls only when its entry differs; and no call that
carries axis `x` comes after a call that carries axis `y`. -/
theorem fixed_call_order (mgr : WebAudioManager) (P C : JSVal) :
    (∃ bank xs ys,
      (reconcile mgr (some P) C).trace = bank ++ xs ++ ys ∧
      BankCalls C bank ∧ AxisCalls C "x" xs ∧ AxisCalls C "y" ys ∧
      (xs ≠ [] → updatedWithinPath (some P) C ["effects", "x"] = true) ∧
      (ys ≠ [] → updatedWithinPath (some P) C ["effects", "y"] = true)) ∧
    (∀ before after c, (reconcile mgr (some P) C).trace = before ++ c :: after →
      c.axisTag = some "y" → ∀ d ∈ after, d.axisTag ≠ some "x") := by
  obtain ⟨bank, xs, ys, ht, hb, _, _, hx, hy, hxu, hyu⟩ := reconcile_trace_shape mgr P C
  refine ⟨⟨bank, xs, ys, ht, hb, hx, hy, hxu, hyu⟩, ?_⟩
  intro before after c hsplit hc d hd
  have hys : ∀ e ∈ ys, e.axisTag ≠ some "x" := by
    intro e he
    rcases (axisCalls_mem hy e he).2 with h | h <;> simp [h]
  have hpre : ∀ e ∈ bank ++ xs, e.axisTag ≠ some "y" := by
    intro e he
    rcases List.mem_append.mp he with he | he
    · simp [(bankCalls_mem hb e he).2]
    · rcases (axisCalls_mem hx e he).2 with h | h <;> simp [h]
  rw [ht] at hsplit
  rcases List.append_eq_append_iff.mp hsplit with ⟨m, _, h2⟩ | ⟨m, h1, h2⟩
  · -- the call `c` lies in `ys`, and so does everything after it
    exact hys d (by rw [h2]; simp [hd])
  · cases m with
    | nil =>
      simp only [List.nil_append] at h2
      exact hys d (by rw [← h2]; exact List.mem_cons_of_mem _ hd)
    | cons e m =>
      -- the call `c` would lie in the bank or in `xs`, where nothing carries `y`
      simp only [List.cons_append, List.cons.injEq] at h2
      exact absurd hc (hpre c (by rw [h1, h2.1]; simp))

/-- C9. Baseline always advances: after a pass the stored state is the
current snapshot `C`, for every stored previous state and every manager,
whether the pass returned early, completed, or ended because a call raised;
the next pass therefore compares against `C`. -/
theorem baseline_always_advances (mgr mgr2 : WebAudioManager) (st : Option JSVal)
    (C C2 : JSVal) :
    (reconcile mgr st C).currentState = some C ∧
    reconcile mgr2 (reconcile mgr st C).currentState C2 = reconcile mgr2 (some C) C2 := by
  rw [reconcile_currentState]
  exact ⟨rfl, rfl⟩

/-- C10, as stated, fails: with the previous snapshot `stateExample` and a
current snapshot whose top-level `effects` key is missing, the pass makes three
calls for axis `x` and then raises a `TypeError` on reading
`currentState.effects[axis].options`, the manager calls not raising. -/
theorem missing_effects_raises :
    (reconcile reliableManager (some stateExample) stateWithoutEffects).error =
      some .typeError ∧
    (reconcile reliableManager (some stateExample) stateWithoutEffects).trace =
      [.updateEffectAmount "x" stateWithoutEffects, .destroyEffectChain,
        .rebuildEffectChain (.obj [])] := by
  constructor <;> rfl

/-- C10, amended. With a previous snapshot `P` and the manager calls not
raising, the pass over the current snapshot `C` completes without raising if
and only if, for each axis `x` and `y`: when `effects[axis].name` differs, `C`
is not null; and when `effects[axis].options` differs, `C` has an entry
`effects[axis]` that is not null.  Missing keys are otherwise treated as
absent values by the diff. -/
theorem completes_iff_reads_defined (P C : JSVal) :
    (reconcile reliableManager (some P) C).error = none ↔
      ∀ axis, axis = "x" ∨ axis = "y" →
        (updatedWithinPath (some P) C ["effects", axis, "name"] = true → C ≠ .null) ∧
        (updatedWithinPath (some P) C ["effects", axis, "options"] = true →
          ∃ entry, resolve ["effects", axis] C = some entry ∧ entry ≠ .null) :=
  reconcile_error_iff P C

/-- C11. Notes are compared as a set: when the notes of `S1` and `S2` are
sequences, those of `S2` being a reordering (a permutation) of those of `S1`,
and neither `oscillators` nor `effects` differs, the pass that observes `S2`
after `S1` reports no change of `notes`, makes no call on WebAudioManager and
returns normally, whatever the manager. -/
theorem reordered_notes_no_calls (mgr mgr2 : WebAudioManager) (st : Option JSVal)
    (S1 S2 : JSVal) (xs ys : List JSVal)
    (h1 : resolve ["notes"] S1 = some (.arr xs))
    (h2 : resolve ["notes"] S2 = some (.arr ys))
    (hperm : List.Perm xs ys)
    (ho : updatedWithinPath (some S1) S2 ["oscillators"] = false)
    (he : updatedWithinPath (some S1) S2 ["effects"] = false) :
    updatedWithinPath (some S1) S2 ["notes"] = false ∧
    (reconcile mgr2 (reconcile mgr st S1).currentState S2).trace = [] ∧
    (reconcile mgr2 (reconcile mgr st S1).currentState S2).error = none := by
  rw [reconcile_currentState]
  have hn : updatedWithinPath (some S1) S2 ["notes"] = false := by
    have hs : sameNotes (some (.arr xs)) (some (.arr ys)) = true :=
      (sameNotes_arr xs ys).mpr
        ⟨fun x hx => ⟨x, hperm.mem_iff.mp hx, deepEq_refl x⟩,
          fun y hy => ⟨y, hperm.mem_iff.mpr hy, deepEq_refl y⟩⟩
    simp [updatedWithinPath, h1, h2, hs]
  exact ⟨hn, by simp [reconcile, hn, ho, he], by simp [reconcile, hn, ho, he]⟩

/-- The sample state, then the same state with its first two notes swapped. -/
theorem reordered_notes_no_calls_witness :
    resolve ["notes"] (sampleState ["e4", "c4", "g4"] filterEntry distortionEntry) =
      some (.arr [.str "e4", .str "c4", .str "g4"]) ∧
    updatedWithinPath (some stateExample)
      (sampleState ["e4", "c4", "g4"] filterEntry distortionEntry) ["notes"] = false ∧
    (reconcile reliableManager (reconcile reliableManager none stateExample).currentState
      (sampleState ["e4", "c4", "g4"] filterEntry distortionEntry)).trace = [] ∧
    (reconcile reliableManager (reconcile reliableManager none stateExample).currentState
      (sampleState ["e4", "c4", "g4"] filterEntry distortionEntry)).error = none :=
  ⟨rfl, reordered_notes_no_calls reliableManager reliableManager none stateExample
    (sampleState ["e4", "c4", "g4"] filterEntry distortionEntry)
    [.str "c4", .str "e4", .str "g4"] [.str "e4", .str "c4", .str "g4"]
    rfl rfl (List.Perm.swap (JSVal.str "e4") (JSVal.str "c4") [JSVal.str "g4"])
    (by decide) (by decide)⟩

/-- C12, as stated, fails: from the sample state to the same state without
`effects` the code makes three calls and raises a `TypeError`, where the
specified algorithm, which resolves `current.effects[a].options` by path, makes
eight calls; and from `{ effects: { x: { name: 'filter' } } }` to the empty
snapshot the code rebuilds from the copy `{}`, where the specified algorithm
passes the absent `current.effects`. -/
theorem specified_algorithm_goes_on :
    (reconcile reliableManager (some stateExample) stateWithoutEffects).trace.length = 3 ∧
    (reconcile reliableManager (some stateExample) stateWithoutEffects).error =
      some .typeError ∧
    (onSnapshot (some stateExample) stateWithoutEffects).calls.length = 8 ∧
    (reconcile reliableManager (some nameOnlyState) (.obj [])).trace.map Call.toGraphCall =
      [.destroyEffectChain, .rebuildEffectChain (some (.obj []))] ∧
    (onSnapshot (some nameOnlyState) (.obj [])).calls =
      [.destroyEffectChain, .rebuildEffectChain none] :=
  ⟨by decide, rfl, by decide, rfl, rfl⟩

/-- C12, amended. `reconcile` refines the specified algorithm on the passes
that complete: for every previous snapshot `P` and current snapshot `C` such
that the pass of the code completes without raising (the manager calls not
raising) and `C.effects` is a mapping whenever an effect name differs, the
code, which returns early on `notes OR oscillators OR effects` and enters the
loop only when the whole `effects` value differs, leaves the same stored
snapshot and makes the same calls as `onSnapshot`, which returns early on
`notes OR oscillators OR axis x OR axis y` and handles each axis whose entry
differs.  What this needs holds: a difference at `effects[a]` is a difference
at `effects`. -/
theorem reconcile_refines_onSnapshot (P C : JSVal)
    (hcomplete : (reconcile reliableManager (some P) C).error = none)
    (hmap : ∀ a, a = "x" ∨ a = "y" →
      updatedWithinPath (some P) C ["effects", a, "name"] = true →
      ∃ g, resolve ["effects"] C = some (.obj g)) :
    (reconcile reliableManager (some P) C).currentState =
      (onSnapshot (some P) C).previousSnapshot ∧
    (reconcile reliableManager (some P) C).trace.map Call.toGraphCall =
      (onSnapshot (some P) C).calls ∧
    ∀ a, updatedWithinPath (some P) C ["effects", a] = true →
      updatedWithinPath (some P) C ["effects"] = true := by
  refine ⟨?_, ?_, fun a h => updated_of_updated_below (some P) C ["effects"] [a] h⟩
  · rw [reconcile_currentState]
    unfold onSnapshot
    simp only
    split <;> rfl
  · rw [reconcile_completed P C hcomplete]
    unfold completedTrace onSnapshot
    simp only [List.map_append,
      completedAxisCalls_toGraphCall P C "x" (hmap "x" (Or.inl rfl)),
      completedAxisCalls_toGraphCall P C "y" (hmap "y" (Or.inr rfl))]
    by_cases hn : updatedWithinPath (some P) C ["notes"] = true <;>
      by_cases ho : updatedWithinPath (some P) C ["oscillators"] = true <;>
      by_cases hx : updatedWithinPath (some P) C ["effects", "x"] = true <;>
      by_cases hy : updatedWithinPath (some P) C ["effects", "y"] = true <;>
      simp [hn, ho, hx, hy, Call.toGraphCall]

/-- The sample state, then a state with one note, no oscillators, the effect
of axis `x` swapped and a further key under `effects`: five calls. -/
theorem reconcile_refines_onSnapshot_witness :
    (reconcile reliableManager (some stateExample)
      (.obj [("notes", .arr [.str "c4"]),
        ("effects", .obj [("x", effectEntry "delay" 40 []), ("y", distortionEntry),
          ("z", .num 1)])])).error = none ∧
    (reconcile reliableManager (some stateExample)
      (.obj [("notes", .arr [.str "c4"]),
        ("effects", .obj [("x", effectEntry "delay" 40 []), ("y", distortionEntry),
          ("z", .num 1)])])).trace.map Call.toGraphCall =
      (onSnapshot (some stateExample)
        (.obj [("notes", .arr [.str "c4"]),
          ("effects", .obj [("x", effectEntry "delay" 40 []), ("y", distortionEntry),
            ("z", .num 1)])])).calls ∧
    (onSnapshot (some stateExample)
      (.obj [("notes", .arr [.str "c4"]),
        ("effects", .obj [("x", effectEntry "delay" 40 []), ("y", distortionEntry),
          ("z", .num 1)])])).calls.length = 5 :=
  ⟨rfl, (reconcile_refines_onSnapshot stateExample
    (.obj [("notes", .arr [.str "c4"]),
      ("effects", .obj [("x", effectEntry "delay" 40 []), ("y", distortionEntry),
        ("z", .num 1)])]) rfl (fun _ _ _ => ⟨_, rfl⟩)).2.1, by decide⟩

/-- C13. Axis independence: for an axis `a` among `x` and `y` whose entry
`effects[a]` is structurally unchanged, the pass makes no call that carries
axis `a` (no `updateEffectAmount` and no `updateEffectParameters` for it),
whatever the manager. -/
theorem axis_independence (mgr : WebAudioManager) (P C : JSVal) (axis : String)
    (ha : axis = "x" ∨ axis = "y")
    (h : updatedWithinPath (some P) C ["effects", axis] = false) :
    ∀ c ∈ (reconcile mgr (some P) C).trace, c.axisTag ≠ some axis := by
  obtain ⟨bank, xs, ys, ht, hb, _, _, hx, hy, hxu, hyu⟩ := reconcile_trace_shape mgr P C
  intro c hc
  rw [ht] at hc
  simp only [List.mem_append] at hc
  rcases hc with (hc | hc) | hc
  · simp [(bankCalls_mem hb c hc).2]
  · rcases ha with rfl | rfl
    · have : xs = [] := by
        by_contra hne
        rw [hxu hne] at h
        exact Bool.noConfusion h
      rw [this] at hc
      simp at hc
    · rcases (axisCalls_mem hx c hc).2 with h1 | h1 <;> simp [h1]
  · rcases ha with rfl | rfl
    · rcases (axisCalls_mem hy c hc).2 with h1 | h1 <;> simp [h1]
    · have : ys = [] := by
        by_contra hne
        rw [hyu hne] at h
        exact Bool.noConfusion h
      rw [this] at hc
      simp at hc

/-- The sample state, then the same state with the effect of axis `x` swapped:
nothing is tagged `y`. -/
theorem axis_independence_witness :
    updatedWithinPath (some stateExample)
      (sampleState ["c4", "e4", "g4"]
        (effectEntry "delay" 41 [("feedback", .num 30)]) distortionEntry)
      ["effects", "y"] = false ∧
    ∀ c ∈ (reconcile reliableManager (some stateExample)
      (sampleState ["c4", "e4", "g4"]
        (effectEntry "delay" 41 [("feedback", .num 30)]) distortionEntry)).trace,
      c.axisTag ≠ some "y" :=
  ⟨by decide, axis_independence reliableManager stateExample _ "y" (Or.inr rfl) (by decide)⟩

/-- C14, as stated, fails: after `initializeWebAudio` of store `0` and then of
store `1`, `reconcile` is subscribed to store `0` but the module reads store
`1`: a pass stores the state of store `1`, and after the notes of store `0`
change a pass makes no call, where a pass comparing the states of store `0`
would rebuild the oscillators. -/
theorem second_store_takes_over :
    ((initializeWebAudio 1 (initializeWebAudio 0 twoStores)).stores 0).listeners = 1 ∧
    (initializeWebAudio 1 (initializeWebAudio 0 twoStores)).module.store = some 1 ∧
    (reconcileModule reliableManager
      (initializeWebAudio 1 (initializeWebAudio 0 twoStores))).1.module.currentState =
        some stateWithoutEffects ∧
    (reconcileModule reliableManager
      (setState 0 (sampleState ["c4"] filterEntry distortionEntry)
        (reconcileModule reliableManager
          (initializeWebAudio 1 (initializeWebAudio 0 twoStores))).1)).2.trace = [] ∧
    (reconcile reliableManager (some stateExample)
      (sampleState ["c4"] filterEntry distortionEntry)).trace =
      [.stopAllOscillators,
        .createOscillators (sampleState ["c4"] filterEntry distortionEntry)] :=
  ⟨rfl, rfl, rfl, rfl, rfl⟩

/-- C14, amended. The module has one `store` and one `currentState`: after
`initializeWebAudio(a)` followed by `initializeWebAudio(b)` for two distinct
stores, the module variable `store` is `b`; every pass, whichever subscription
triggers it, compares the stored state with the state of `b` and stores the
state of `b`; the state of `a` is never read, so a change of it does not
change the pass. -/
theorem module_reads_last_store (mgr : WebAudioManager) (w : World) (a b : Nat) (S : JSVal)
    (hab : a ≠ b) :
    (initializeWebAudio b (initializeWebAudio a w)).module.store = some b ∧
    (reconcileModule mgr (initializeWebAudio b (initializeWebAudio a w))).2 =
      reconcile mgr w.module.currentState (w.stores b).state ∧
    (reconcileModule mgr (setState a S (initializeWebAudio b (initializeWebAudio a w)))).2 =
      (reconcileModule mgr (initializeWebAudio b (initializeWebAudio a w))).2 ∧
    (reconcileModule mgr
      (setState a S (initializeWebAudio b (initializeWebAudio a w)))).1.module.currentState =
      some (w.stores b).state := by
  have hba : b ≠ a := fun h => hab h.symm
  refine ⟨rfl, ?_, ?_, ?_⟩
  · simp [reconcileModule, initializeWebAudio, hba]
  · simp [reconcileModule, initializeWebAudio, setState, hba]
  · simp [reconcileModule, initializeWebAudio, setState, hba, reconcile_currentState]

/-- Stores `0` and `1` of `twoStores`, store `0` getting new notes. -/
theorem module_reads_last_store_witness :
    (0 : Nat) ≠ 1 ∧
    (reconcileModule reliableManager (setState 0 (sampleState ["c4"] filterEntry distortionEntry)
      (initializeWebAudio 1 (initializeWebAudio 0 twoStores)))).1.module.currentState =
      some (twoStores.stores 1).state :=
  ⟨by decide, (module_reads_last_store reliableManager twoStores 0 1
    (sampleState ["c4"] filterEntry distortionEntry) (by decide)).2.2.2⟩

/-- C15. No silent change: when the effects of both the previous snapshot `P`
and the current snapshot `C` are a mapping with exactly the keys `x` and `y`,
each entry with exactly the fields `name`, `amount` and `options`, the trace of
the pass (the manager calls not raising) is empty if and only if `notes`,
`oscillators` and `effects` are all structurally unchanged. -/
theorem no_silent_change (P C : JSVal)
    (hP : wellShapedEffects P = true) (hC : wellShapedEffects C = true) :
    (reconcile reliableManager (some P) C).trace = [] ↔
      (updatedWithinPath (some P) C ["notes"] = false ∧
        updatedWithinPath (some P) C ["oscillators"] = false ∧
        updatedWithinPath (some P) C ["effects"] = false) := by
  rw [reconcile_completed P C (completes_of_wellShaped P C hC)]
  constructor
  · intro h
    simp only [completedTrace, List.append_eq_nil] at h
    obtain ⟨⟨hb, hx⟩, hy⟩ := h
    have hno : (updatedWithinPath (some P) C ["notes"] ||
        updatedWithinPath (some P) C ["oscillators"]) = false := by
      cases hh : (updatedWithinPath (some P) C ["notes"] ||
        updatedWithinPath (some P) C ["oscillators"]) <;> simp [hh] at hb ⊢
    simp only [Bool.or_eq_false_iff] at hno
    refine ⟨hno.1, hno.2, ?_⟩
    by_contra he
    simp only [Bool.not_eq_false] at he
    obtain ⟨eP, hPe, hPk, hPentries⟩ := wellShapedEffects_spec hP
    obtain ⟨eC, hCe, hCk, hCentries⟩ := wellShapedEffects_spec hC
    obtain ⟨axis, haxis, hua⟩ :=
      updated_at_key P C ["effects"] ["x", "y"] eP eC (by decide) (by decide)
        hPe hCe hPk hCk he
    simp only [List.cons_append, List.nil_append] at hua
    have haxis2 : axis = "x" ∨ axis = "y" := by simpa using haxis
    obtain ⟨enP, hPen, hPenk⟩ := hPentries axis haxis2
    obtain ⟨enC, hCen, hCenk⟩ := hCentries axis haxis2
    obtain ⟨leaf, hleaf, hul⟩ := updated_at_key P C ["effects", axis]
      ["name", "amount", "options"] enP enC (by simp) (by simp) hPen hCen hPenk hCenk hua
    simp only [List.cons_append, List.nil_append] at hul
    have hempty : completedAxisCalls (updatedWithinPath (some P) C) C axis = [] := by
      rcases haxis2 with rfl | rfl
      · exact hx
      · exact hy
    obtain ⟨h1, h2, h3⟩ := completedAxisCalls_eq_nil hempty hua
    simp only [List.mem_cons, List.mem_singleton, List.not_mem_nil, or_false] at hleaf
    rcases hleaf with rfl | rfl | rfl
    · rw [h2] at hul; exact Bool.noConfusion hul
    · rw [h1] at hul; exact Bool.noConfusion hul
    · rw [h3] at hul; exact Bool.noConfusion hul
  · rintro ⟨hn, ho, he⟩
    have hx := not_updated_below (some P) C ["effects"] ["x"] he
    have hy := not_updated_below (some P) C ["effects"] ["y"] he
    simp only [List.cons_append, List.nil_append] at hx hy
    simp [completedTrace, completedAxisCalls, hn, ho, hx, hy]

/-- The sample state, then the same state with one option of axis `y`
changed. -/
theorem no_silent_change_witness :
    wellShapedEffects stateExample = true ∧
    wellShapedEffects (sampleState ["c4", "e4", "g4"] filterEntry
      (effectEntry "distortion" 75 [("oversampling", .str "2x")])) = true ∧
    updatedWithinPath (some stateExample) (sampleState ["c4", "e4", "g4"] filterEntry
      (effectEntry "distortion" 75 [("oversampling", .str "2x")])) ["effects"] = true ∧
    ((reconcile reliableManager (some stateExample) (sampleState ["c4", "e4", "g4"] filterEntry
        (effectEntry "distortion" 75 [("oversampling", .str "2x")]))).trace = [] ↔
      (updatedWithinPath (some stateExample) (sampleState ["c4", "e4", "g4"] filterEntry
        (effectEntry "distortion" 75 [("oversampling", .str "2x")])) ["notes"] = false ∧
      updatedWithinPath (some stateExample) (sampleState ["c4", "e4", "g4"] filterEntry
        (effectEntry "distortion" 75 [("oversampling", .str "2x")])) ["oscillators"] = false ∧
      updatedWithinPath (some stateExample) (sampleState ["c4", "e4", "g4"] filterEntry
        (effectEntry "distortion" 75 [("oversampling", .str "2x")])) ["effects"] = false)) :=
  ⟨by decide, by decide, by decide,
    no_silent_change stateExample _ (by decide) (by decide)⟩

/-- C16, as stated, fails: from `{ effects: { x: { name: 'filter' } } }` to
the empty snapshot the pass completes with `destroyEffectChain()` followed by
`rebuildEffectChain({})`, although the current snapshot has no `effects`; and
to `null` the pass raises after `destroyEffectChain()`, which no rebuild
follows. -/
theorem rebuild_argument_not_effects :
    (reconcile reliableManager (some nameOnlyState) (.obj [])).trace =
      [.destroyEffectChain, .rebuildEffectChain (.obj [])] ∧
    (reconcile reliableManager (some nameOnlyState) (.obj [])).error = none ∧
    resolve ["effects"] (.obj []) = none ∧
    (reconcile reliableManager (some nameOnlyState) .null).trace = [.destroyEffectChain] ∧
    (reconcile reliableManager (some nameOnlyState) .null).error = some .typeError :=
  ⟨rfl, rfl, rfl, rfl, rfl⟩

/-- C16, amended. In the trace of every pass, the manager calls not raising,
each `stopAllOscillators()` is immediately followed by `createOscillators(C)`
and occurs at most once; and each `destroyEffectChain()` is immediately
followed by `rebuildEffectChain(E)`, except on a null current snapshot, where
the pass raises a `TypeError` right after `destroyEffectChain()`, its last
call.  Here `E` is the copy `{ ...C.effects }`: structurally equal to
`C.effects` when that is a mapping, and the empty mapping when `C` has no
`effects`. -/
theorem teardown_rebuild_pairing (P C : JSVal) :
    EachFollowedBy (fun c => c = .stopAllOscillators) (fun d => d = .createOscillators C)
      (reconcile reliableManager (some P) C).trace ∧
    (reconcile reliableManager (some P) C).trace.countP Call.isStop ≤ 1 ∧
    (∀ before after,
      (reconcile reliableManager (some P) C).trace = before ++ .destroyEffectChain :: after →
      (∃ rest, after = .rebuildEffectChain (spread (resolve ["effects"] C)) :: rest) ∨
      (after = [] ∧ C = .null ∧
        (reconcile reliableManager (some P) C).error = some .typeError)) ∧
    (∀ effects, resolve ["effects"] C = some (.obj effects) →
      deepEq (spread (resolve ["effects"] C)) (.obj effects) = true) ∧
    (resolve ["effects"] C = none → spread (resolve ["effects"] C) = .obj []) := by
  refine ⟨(reconcile_stop_paired P C).1, (reconcile_stop_paired P C).2, ?_, ?_, ?_⟩
  · intro before after hsplit
    rcases reconcile_paired P C with h | ⟨l', hl', hgood, hnull, herr⟩
    · obtain ⟨d, rest, hafter, hd⟩ := h before _ after hsplit rfl
      exact Or.inl ⟨rest, by rw [hafter, hd]⟩
    · rw [hl'] at hsplit
      rcases List.append_eq_append_iff.mp hsplit with ⟨m, hb, hm⟩ | ⟨m, hb, hm⟩
      · -- the destroy is the last call
        cases m with
        | nil =>
          simp only [List.nil_append, List.cons.injEq, true_and] at hm
          exact Or.inr ⟨hm.symm, hnull, herr⟩
        | cons e m =>
          simp only [List.cons_append, List.cons.injEq] at hm
          cases m <;> simp at hm
      · -- the destroy lies before the last call
        cases m with
        | nil =>
          simp only [List.nil_append, List.cons.injEq, true_and] at hm
          exact Or.inr ⟨hm, hnull, herr⟩
        | cons e m =>
          simp only [List.cons_append, List.cons.injEq] at hm
          obtain ⟨d, rest, hafter, hd⟩ := hgood before _ m (by rw [hb, hm.1]) rfl
          exact Or.inl ⟨rest ++ [.destroyEffectChain], by rw [hm.2, hafter, hd]; rfl⟩
  · intro effects he
    rw [he]
    exact deepEq_refl _
  · intro he
    rw [he]
    rfl

/-- C17, as stated, fails: from the sample state to the same state without
`effects` the names of both axes differ, but the pass raises during axis `x`
and destroys the chain only once. -/
theorem raised_pass_rebuilds_once :
    namesChanged stateExample stateWithoutEffects = 2 ∧
    (reconcile reliableManager (some stateExample) stateWithoutEffects).trace.countP
      Call.isDestroy = 1 ∧
    (reconcile reliableManager (some stateExample) stateWithoutEffects).error =
      some .typeError :=
  ⟨by decide, by decide, rfl⟩

/-- C17, amended. In every pass that completes without raising (the manager
calls not raising), the number of `destroyEffectChain()` calls and the number
of `rebuildEffectChain` calls both equal the number of axes among `x` and `y`
whose effect name differs, so that the chain is destroyed and rebuilt twice
when both names change; and the trace of a pass never exceeds 10 calls,
whatever the manager. -/
theorem rebuild_count (mgr : WebAudioManager) (P C : JSVal) :
    ((reconcile reliableManager (some P) C).error = none →
      (reconcile reliableManager (some P) C).trace.countP Call.isDestroy = namesChanged P C ∧
      (reconcile reliableManager (some P) C).trace.countP Call.isRebuild =
        namesChanged P C) ∧
    (reconcile mgr (some P) C).trace.length ≤ 10 := by
  constructor
  · intro h
    rw [reconcile_completed P C h]
    exact completedTrace_count P C
  · obtain ⟨bank, xs, ys, ht, hb, _, _, hx, hy, _, _⟩ := reconcile_trace_shape mgr P C
    have h1 := bankCalls_length hb
    have h2 := axisCalls_length hx
    have h3 := axisCalls_length hy
    rw [ht]
    simp only [List.length_append]
    omega

/-- Both names change: the chain is destroyed and rebuilt twice. -/
theorem rebuild_count_witness :
    namesChanged stateExample (sampleState ["c4", "e4", "g4"]
      (effectEntry "delay" 40 [("type", .str "lowpass"), ("resonance", .str "5")])
      (effectEntry "reverb" 75 [("oversampling", .str "4x")])) = 2 ∧
    (reconcile reliableManager (some stateExample) (sampleState ["c4", "e4", "g4"]
      (effectEntry "delay" 40 [("type", .str "lowpass"), ("resonance", .str "5")])
      (effectEntry "reverb" 75 [("oversampling", .str "4x")]))).trace.countP
        Call.isDestroy = 2 :=
  ⟨by decide, ((rebuild_count reliableManager stateExample (sampleState ["c4", "e4", "g4"]
      (effectEntry "delay" 40 [("type", .str "lowpass"), ("resonance", .str "5")])
      (effectEntry "reverb" 75 [("oversampling", .str "4x")]))).1 rfl).1.trans (by decide)⟩

end KeyAndPad
